import Mathlib

/-!
Verification of the memorydb in-memory collection engine.

Modeling basis: the primary source file `src/makeMemoryDB.ts` is embedded for
`new`, `save`/`load`, `create`, `getAll`, `findById`, `find`, `count` and the
registry construction (`makeSchema`); `deleteById` exists only in the extended
snapshot of the same module and is embedded from there, operating on the same
collection state (its cache accesses are plain key lookup/erase in both
snapshots).  The extended snapshot's own `save` differs from the primary
one — its cache is a Map while the newness test still uses the JS `in`
operator on the Map object — and is embedded separately as `save1Map` /
`saveMap` alongside the primary object-keyed `save1` / `save`.

Two levels of embedding are used:

* `MemDB` — value-level semantics: records are immutable values, `clone`
  is the identity on values.  The JS code never mutates a stored object in
  place (updates replace the cache entry with a new clone), so the value level
  captures exactly which record value each slot holds at any time; in
  particular it captures that after an update the array slot still holds the
  pre-update value while the cache holds the new one.
* `MemDBRef` — reference-level semantics: records live in an append-only heap
  and the store holds addresses; `clone` allocates a fresh address carrying a
  copy of the value.  This level expresses the deep-copy / no-sharing claims,
  which are about object identity.

Abstractions (noted once here): JS string-keyed objects are modeled as
insertion-ordered association lists without prototype-chain artifacts;
identifier generation (`uuidv4`) is modeled as a caller-supplied policy
function of a consumed counter; numbers used as `startingIndex` are modeled as
integers (`NaN` and fractional indices are not modeled); the find callbacks
are modeled as pure functions that may update the `extra` payload, matching
the documented callback protocol.
-/

namespace MemDB

variable {α β : Type} {Ext : Type}

/-- A stored record: the `$id` field plus the entity's declared attributes,
abstracted as a value of type `α`. -/
structure Rec (α : Type) where
  id : String
  attrs : α
deriving DecidableEq, Repr

instance [Inhabited α] : Inhabited (Rec α) := ⟨⟨"", default⟩⟩

/-- A partial record as passed to `new`: possibly carrying an identifier
field, plus the partial attributes. -/
structure Part (α : Type) where
  id : Option String := none
  attrs : α
deriving DecidableEq, Repr

/-- Key lookup in the JS object used as the keyed mapping. -/
def lookupId : List (String × β) → String → Option β
  | [], _ => none
  | (k, w) :: rest, key => if k = key then some w else lookupId rest key

/-- Key assignment in the JS object used as the keyed mapping: replace in
place if the key is present, append otherwise. -/
def insertId : List (String × β) → String → β → List (String × β)
  | [], key, v => [(key, v)]
  | (k, w) :: rest, key, v =>
    if k = key then (k, v) :: rest else (k, w) :: insertId rest key v

/-- Key deletion in the keyed mapping (`delete cache[id]` / `cache.delete(id)`). -/
def eraseId : List (String × β) → String → List (String × β)
  | [], _ => []
  | (k, w) :: rest, key => if k = key then rest else (k, w) :: eraseId rest key

/-- One collection's state: the keyed mapping (`collection.cache`), the
ordered sequence (`collection.array`) and the identifier-policy counter. -/
structure StoreState (α : Type) where
  cache : List (String × Rec α) := []
  array : List (Rec α) := []
  nextId : Nat := 0
deriving DecidableEq, Repr

/-- The state of a freshly constructed collection. -/
def emptyState : StoreState α := { cache := [], array := [], nextId := 0 }

/-- `new(p)`: `{ ...(p || {}), $id: newId() }` — spread the partial, then set
the identifier field to a freshly generated value (so a generated identifier
always overwrites any identifier carried by `p`).  Consumes one identifier
from the policy `g`; does not touch the collection. -/
def newRec (g : Nat → String) (st : StoreState α) (p : Part α) :
    Rec α × StoreState α :=
  (⟨g st.nextId, p.attrs⟩, { st with nextId := st.nextId + 1 })

/-- One step of `save`: look up the identifier; write a clone into the
mapping; if the identifier was absent, append that mapping entry to the
ordered sequence; return a clone of the mapping entry.  Note that on an
update the sequence is untouched, so its slot keeps the pre-update value. -/
def save1 (st : StoreState α) (m : Rec α) : Rec α × StoreState α :=
  let isNew := (lookupId st.cache m.id).isNone
  let cache1 := insertId st.cache m.id m
  let array1 := if isNew then st.array ++ [m] else st.array
  (m, { st with cache := cache1, array := array1 })

/-- `save(...models)`: process each input record in order. -/
def save (st : StoreState α) : List (Rec α) → List (Rec α) × StoreState α
  | [] => ([], st)
  | m :: ms =>
    let (r, st1) := save1 st m
    let (rs, st2) := save st1 ms
    (r :: rs, st2)

/-- `load` is an alias for `save`. -/
def load (st : StoreState α) (ms : List (Rec α)) : List (Rec α) × StoreState α :=
  save st ms

/-- The JS `in` operator applied to a Map: `key in map` tests the Map
OBJECT's own and prototype properties (`size`, `get`, `set`, `has`, ...),
not the Map's entries.  Ordinary record identifiers are not property names
of `Map.prototype`, so for them the test is always false (identifiers that
happen to collide with `Map.prototype` property names are outside the
model). -/
def inMapObject (_key : String) : Bool := false

/-- One step of the extended snapshot's `save`, whose cache is a Map: the
newness test is still `!(key in collection.cache)` — the JS `in` operator
on the Map object — so an already-present identifier is treated as new
again and its freshly stored clone is appended to the sequence a second
time, while `cache.set` keeps a single mapping entry. -/
def save1Map (st : StoreState α) (m : Rec α) : Rec α × StoreState α :=
  let key := m.id
  let isNew := !(inMapObject key)
  let cache1 := insertId st.cache key m
  let array1 := if isNew then st.array ++ [m] else st.array
  (m, { st with cache := cache1, array := array1 })

/-- The extended snapshot's `save(...models)`: process each input record in
order through `save1Map`. -/
def saveMap (st : StoreState α) : List (Rec α) → List (Rec α) × StoreState α
  | [] => ([], st)
  | m :: ms =>
    let r := save1Map st m
    let rest := saveMap r.2 ms
    (r.1 :: rest.1, rest.2)

/-- The `partials.map((p) => schema.new(p))` stage of `create`: run `new` on
each partial in order, threading the identifier counter. -/
def newBatch (g : Nat → String) (st : StoreState α) :
    List (Part α) → List (Rec α) × StoreState α
  | [] => ([], st)
  | p :: ps =>
    let (r, st1) := newRec g st p
    let (rs, st2) := newBatch g st1 ps
    (r :: rs, st2)

/-- `create(...partials)`: `schema.save(...partials.map((p) => schema.new(p)))`. -/
def create (g : Nat → String) (st : StoreState α) (ps : List (Part α)) :
    List (Rec α) × StoreState α :=
  let (rs, st1) := newBatch g st ps
  save st1 rs

/-- `getAll()`: a deep copy of the ordered sequence (identity on values). -/
def getAll (st : StoreState α) : List (Rec α) := st.array

/-- `count()`: the length of the ordered sequence. -/
def countModels (st : StoreState α) : Nat := st.array.length

/-- `findById(...$ids)`: reduce over the requested identifiers, pushing a
clone of the mapping entry when the lookup succeeds. -/
def findById (st : StoreState α) (ids : List String) : List (Rec α) :=
  ids.foldl
    (fun results id =>
      match lookupId st.cache id with
      | some obj => results ++ [obj]
      | none => results)
    []

/-- The identifier loop of `deleteById`: for each requested identifier, push
the current mapping entry (when present) onto the deleted list, then delete
the key from the mapping. -/
def deleteLoop : List (String × Rec α) → List String → List (Rec α) × List (String × Rec α)
  | cache, [] => ([], cache)
  | cache, id :: rest =>
    let hd := match lookupId cache id with
      | some m => [m]
      | none => ([] : List (Rec α))
    let tl := deleteLoop (eraseId cache id) rest
    (hd ++ tl.1, tl.2)

/-- The array filter of `deleteById`: scan the sequence left to right with a
shrinking list of remaining identifiers; when the list is empty keep
everything; a record whose identifier occurs in the remaining list is dropped
and one occurrence of that identifier is spliced out. -/
def deleteFilterAux : List (Rec α) → List String → List (Rec α)
  | [], _ => []
  | m :: rest, remaining =>
    if remaining.isEmpty then m :: deleteFilterAux rest remaining
    else if m.id ∈ remaining then deleteFilterAux rest (remaining.erase m.id)
    else m :: deleteFilterAux rest remaining

/-- `deleteById(...ids)`: zero identifiers return empty without touching the
store; otherwise delete each identifier from the mapping (collecting the
pre-removal mapping entries) and filter the sequence. -/
def deleteById (st : StoreState α) (ids : List String) :
    List (Rec α) × StoreState α :=
  if ids.isEmpty then ([], st)
  else
    let del := deleteLoop st.cache ids
    let array1 := deleteFilterAux st.array ids
    (del.1, { st with cache := del.2, array := array1 })

/-- Options of the `find` operation.  An absent `options` argument behaves
exactly like `{}` (every access goes through `options?.`), so options are
modeled as a record with optional fields. -/
structure FindOptions (Ext : Type) where
  extra : Option Ext := none
  reverse : Bool := false
  startingIndex : Option Int := none

/-- The context threaded through one `find` invocation. -/
structure FindContext (Model Ext : Type) where
  results : List Model
  index : Nat
  count : Nat
  options : FindOptions Ext
  extra : Ext

/-- `clampStart`: `Math.max(0, Math.min(collection.array.length - 1, value))`. -/
def clampStart (len : Nat) (value : Int) : Nat :=
  (max 0 (min ((len : Int) - 1) value)).toNat

/-- The effective starting index of a scan:
`clampStart(options?.startingIndex || default)` where the default is
`length - 1` for reverse scans and `0` for forward scans.  The JS `||`
treats a supplied `startingIndex` of `0` exactly like an absent one. -/
def effStart (len : Nat) (reverse : Bool) (si : Option Int) : Nat :=
  let dflt : Int := if reverse then (len : Int) - 1 else 0
  let raw : Int :=
    match si with
    | some v => if v = 0 then dflt else v
    | none => dflt
  clampStart len raw

/-- The sequence of indices the scan loop visits: forward runs the index up
from the start while `index < length`; reverse runs it down while
`index > 0` (so a reverse scan visits `start, start-1, ..., 1`). -/
def visitIdxs (len : Nat) (reverse : Bool) (start : Nat) : List Nat :=
  if reverse then (List.range' 1 start).reverse
  else List.range' start (len - start)

/-- One iteration of the scan loop body (before the stopper check): set
`context.index`, fetch `collection.array[context.index]`, call the matcher
(which may update `context.extra`), and push the record on a match. -/
def runFindStep [Inhabited α] (arr : List (Rec α))
    (matcher : Rec α → FindContext (Rec α) Ext → Bool × Ext)
    (i : Nat) (ctx : FindContext (Rec α) Ext) : FindContext (Rec α) Ext :=
  let ctx1 := { ctx with index := i }
  let m := arr.getD i default
  let step := matcher m ctx1
  { ctx1 with
    extra := step.2,
    results := if step.1 then ctx1.results ++ [m] else ctx1.results }

/-- The scan loop: run the body at each index, consulting the stopper after
each iteration. -/
def runFind [Inhabited α] (arr : List (Rec α))
    (matcher : Rec α → FindContext (Rec α) Ext → Bool × Ext)
    (stopper : FindContext (Rec α) Ext → Bool) :
    List Nat → FindContext (Rec α) Ext → FindContext (Rec α) Ext
  | [], ctx => ctx
  | i :: rest, ctx =>
    let ctx2 := runFindStep arr matcher i ctx
    if stopper ctx2 then ctx2 else runFind arr matcher stopper rest ctx2

/-- `find(matcher, stopper, options)`: build a fresh context (count frozen at
scan start, `extra` initialized from a copy of `options.extra`), compute the
loop bounds, run the scan and return the accumulated results. -/
def find [Inhabited α] [Inhabited Ext] (st : StoreState α)
    (matcher : Rec α → FindContext (Rec α) Ext → Bool × Ext)
    (stopper : FindContext (Rec α) Ext → Bool)
    (opts : FindOptions Ext) : List (Rec α) :=
  let n := st.array.length
  let ctx0 : FindContext (Rec α) Ext :=
    { results := [], index := 0, count := n, options := opts,
      extra := opts.extra.getD default }
  let start := effStart n opts.reverse opts.startingIndex
  (runFind st.array matcher stopper (visitIdxs n opts.reverse start)
    { ctx0 with index := start }).results

/-- The mapping/sequence coherence invariant: the sequence's identifiers are
duplicate-free and the mapping's key list is a permutation of them (so each
identifier present in the mapping occurs exactly once in the sequence and
vice versa). -/
def stateInv (st : StoreState α) : Prop :=
  (st.array.map Rec.id).Nodup ∧
    (st.cache.map Prod.fst).Perm (st.array.map Rec.id)

instance [DecidableEq α] (st : StoreState α) : Decidable (stateInv st) := by
  unfold stateInv; infer_instance

/-- A shape declaration handed to the registry: either an object-shaped
schema (`z.object(...)`, an instance of `z.ZodObject`) or any other
declaration value. -/
inductive ShapeDecl where
  | objectShape (fields : List String)
  | otherShape (tag : String)
deriving DecidableEq, Repr

/-- `definition instanceof SchemaBaseClass` — the runtime test filtering
which declared entities become real collections. -/
def isValidSchema : ShapeDecl → Bool
  | .objectShape _ => true
  | .otherShape _ => false

/-- One element of `apiParts`: the validity verdict, the entity name, its
(freshly constructed, empty) collection store and the original declaration. -/
structure RegistryPart (α : Type) where
  valid : Bool
  name : String
  schema : StoreState α
  zod : ShapeDecl
deriving DecidableEq, Repr

/-- The `Object.keys(settings.schema).map(...)` stage of `makeSchema`. -/
def makeParts (settings : List (String × ShapeDecl)) : List (RegistryPart α) :=
  settings.map fun nd =>
    { valid := isValidSchema nd.2, name := nd.1,
      schema := emptyState, zod := nd.2 }

/-- The reducer of `makeSchema`: skip invalid parts, otherwise assign the
store into the schema map and the original declaration into the zod map
under the entity name. -/
def registryStep (container : List (String × StoreState α) × List (String × ShapeDecl))
    (current : RegistryPart α) :
    List (String × StoreState α) × List (String × ShapeDecl) :=
  if !current.valid then container
  else
    (insertId container.1 current.name current.schema,
     insertId container.2 current.name current.zod)

/-- The `apiParts.reduce(...)` stage of `makeSchema`, starting from the
empty schema and zod containers. -/
def makeSchemaDB (settings : List (String × ShapeDecl)) :
    List (String × StoreState α) × List (String × ShapeDecl) :=
  (makeParts settings (α := α)).foldl registryStep ([], [])

end MemDB

namespace MemDBRef

/-!
Reference-level model: records live in an append-only heap of values; the
collection's mapping and sequence hold heap addresses; `clone` reads a value
and allocates an independent copy at a fresh address.  The JS code never
writes through an existing reference (updates replace the mapping entry), so
an append-only heap captures the reference behavior exactly.
-/

variable {α : Type} {Ext : Type}

open MemDB (Rec lookupId insertId FindOptions FindContext effStart visitIdxs)

/-- An append-only heap of record values; an address is an index. -/
structure Heap (α : Type) where
  data : List α
deriving DecidableEq, Repr

/-- The current size of the heap (the next fresh address). -/
def Heap.size (h : Heap α) : Nat := h.data.length

/-- Dereference an address. -/
def Heap.read (h : Heap α) (a : Nat) : Option α := h.data[a]?

/-- Dereference with a default (for total modeling of JS's always-valid
object references). -/
def Heap.readD [Inhabited α] (h : Heap α) (a : Nat) : α := (h.read a).getD default

/-- Allocate a value at a fresh address. -/
def Heap.alloc (h : Heap α) (v : α) : Heap α × Nat :=
  (⟨h.data ++ [v]⟩, h.data.length)

/-- `clone(x)`: read the object at `a` and allocate an independent deep copy
of it at a fresh address. -/
def clone [Inhabited α] (h : Heap α) (a : Nat) : Heap α × Nat :=
  h.alloc (h.readD a)

/-- Reference-level collection state: the heap plus the mapping and sequence
of addresses. -/
structure State (α : Type) where
  heap : Heap (Rec α)
  cache : List (String × Nat)
  array : List Nat
deriving DecidableEq, Repr

/-- The addresses internal to the store (reachable from its mapping or its
sequence). -/
def internalAddrs (st : State α) : List Nat :=
  st.array ++ st.cache.map Prod.snd

/-- All internal addresses are live (below the heap size). -/
def WFState (st : State α) : Prop :=
  ∀ a ∈ internalAddrs st, a < st.heap.size

instance (st : State α) : Decidable (WFState st) := by
  unfold WFState; infer_instance

/-- Reference-level `save` of one record (the caller's object lives at
address `a`): clone it into the mapping, push the clone's address onto the
sequence when the identifier is new, and return a second clone's address. -/
def save1Ref [Inhabited α] (st : State α) (a : Nat) : State α × Nat :=
  let m := st.heap.readD a
  let isNew := (lookupId st.cache m.id).isNone
  let s1 := clone st.heap a
  let cache1 := insertId st.cache m.id s1.2
  let array1 := if isNew then st.array ++ [s1.2] else st.array
  let s2 := clone s1.1 ((lookupId cache1 m.id).getD s1.2)
  ({ heap := s2.1, cache := cache1, array := array1 }, s2.2)

/-- Reference-level `save(...models)`. -/
def saveRef [Inhabited α] (st : State α) : List Nat → State α × List Nat
  | [] => (st, [])
  | a :: as =>
    let r := save1Ref st a
    let rest := saveRef r.1 as
    (rest.1, r.2 :: rest.2)

/-- Deep copy of a list of records: allocate a fresh copy of the record at
each address, left to right. -/
def cloneList [Inhabited α] (h : Heap (Rec α)) :
    List Nat → Heap (Rec α) × List Nat
  | [] => (h, [])
  | a :: as =>
    let c := clone h a
    let rest := cloneList c.1 as
    (rest.1, c.2 :: rest.2)

/-- Reference-level `getAll()`: `clone(collection.array)` — a fresh array of
fresh copies of every stored record. -/
def getAllRef [Inhabited α] (st : State α) : State α × List Nat :=
  let r := cloneList st.heap st.array
  ({ st with heap := r.1 }, r.2)

/-- The reduce of the reference-level `findById`: for each requested
identifier present in the mapping, push a clone of the mapping entry. -/
def findByIdLoop [Inhabited α] (cache : List (String × Nat))
    (h : Heap (Rec α)) : List String → Heap (Rec α) × List Nat
  | [] => (h, [])
  | id :: rest =>
    match lookupId cache id with
    | some a =>
      let c := clone h a
      let r := findByIdLoop cache c.1 rest
      (r.1, c.2 :: r.2)
    | none => findByIdLoop cache h rest

/-- Reference-level `findById(...$ids)`. -/
def findByIdRef [Inhabited α] (st : State α) (ids : List String) :
    State α × List Nat :=
  let r := findByIdLoop st.cache st.heap ids
  ({ st with heap := r.1 }, r.2)

/-- A reference-level matcher: receives the live heap and the address of the
visited record (exactly what the JS callback receives — an object
reference), together with the context; returns the verdict and the updated
`extra` payload. -/
def RefMatcher (α Ext : Type) : Type :=
  Heap (Rec α) → Nat → FindContext Nat Ext → Bool × Ext

/-- A reference-level stopper: receives the live heap and the context. -/
def RefStopper (α Ext : Type) : Type :=
  Heap (Rec α) → FindContext Nat Ext → Bool

/-- One iteration of the reference-level scan loop body (before the stopper
check): the matcher is invoked on `collection.array[context.index]` itself —
the stored address, not a copy — and a clone of the record is pushed into
the results on a match. -/
def findStepRef [Inhabited α] (arr : List Nat) (matcher : RefMatcher α Ext)
    (i : Nat) (h : Heap (Rec α)) (ctx : FindContext Nat Ext) :
    Heap (Rec α) × FindContext Nat Ext :=
  let ctx1 := { ctx with index := i }
  let a := arr.getD i 0
  let step := matcher h a ctx1
  if step.1 then
    let c := clone h a
    (c.1, { ctx1 with extra := step.2, results := ctx1.results ++ [c.2] })
  else (h, { ctx1 with extra := step.2 })

/-- The reference-level scan loop of `find`. -/
def runFindRef [Inhabited α] (arr : List Nat)
    (matcher : RefMatcher α Ext) (stopper : RefStopper α Ext) :
    List Nat → Heap (Rec α) → FindContext Nat Ext →
      Heap (Rec α) × FindContext Nat Ext
  | [], h, ctx => (h, ctx)
  | i :: rest, h, ctx =>
    let p := findStepRef arr matcher i h ctx
    if stopper p.1 p.2 then p
    else runFindRef arr matcher stopper rest p.1 p.2

/-- Reference-level `find`. -/
def findRef [Inhabited α] [Inhabited Ext] (st : State α)
    (matcher : RefMatcher α Ext) (stopper : RefStopper α Ext)
    (opts : FindOptions Ext) : State α × List Nat :=
  let n := st.array.length
  let ctx0 : FindContext Nat Ext :=
    { results := [], index := 0, count := n, options := opts,
      extra := opts.extra.getD default }
  let start := effStart n opts.reverse opts.startingIndex
  let r := runFindRef st.array matcher stopper (visitIdxs n opts.reverse start)
    st.heap { ctx0 with index := start }
  ({ st with heap := r.1 }, r.2.results)

/-- A matcher that depends only on its arguments: it factors through the
values of the visited record, the accumulated results, the scan index, the
count and the extra payload — it cannot observe addresses or anything
outside the context handed to it. -/
def liftMatcher [Inhabited α]
    (f : Rec α → List (Rec α) → Nat → Nat → Ext → Bool × Ext) :
    RefMatcher α Ext :=
  fun h a ctx =>
    f (h.readD a) (ctx.results.map h.readD) ctx.index ctx.count ctx.extra

/-- A stopper that depends only on its arguments (value level). -/
def liftStopper [Inhabited α]
    (g : List (Rec α) → Nat → Nat → Ext → Bool) :
    RefStopper α Ext :=
  fun h ctx => g (ctx.results.map h.readD) ctx.index ctx.count ctx.extra

end MemDBRef

section ConcreteExamples

open MemDB

/-- A matcher that matches every record and leaves `extra` alone. -/
def matchAll : Rec String → FindContext (Rec String) Unit → Bool × Unit :=
  fun _ ctx => (true, ctx.extra)

/-- A stopper that never stops. -/
def stopNever : FindContext (Rec String) Unit → Bool := fun _ => false

/-- Concrete record A. -/
def recA : Rec String := ⟨"idA", "attrsA"⟩

/-- Concrete record B. -/
def recB : Rec String := ⟨"idB", "attrsB"⟩

/-- Concrete record C. -/
def recC : Rec String := ⟨"idC", "attrsC"⟩

/-- An update of B: same identifier as `recB`, changed attributes. -/
def recB2 : Rec String := ⟨"idB", "attrsB-changed"⟩

/-- The store after inserting A, B, C in that order. -/
def stABC : StoreState String := (save emptyState [recA, recB, recC]).2

/-- The store `stABC` after `save` of the updated B. -/
def stABC2 : StoreState String := (save stABC [recB2]).2

/-- The seven-record contact store of the concrete `findById` scenario
(records indexed 0 through 6). -/
def contactStore : StoreState String :=
  (load emptyState [⟨"0", "Jane"⟩, ⟨"1", "Bob"⟩, ⟨"2", "Mary"⟩, ⟨"3", "Rusty"⟩,
    ⟨"4", "Rick"⟩, ⟨"5", "Michelle"⟩, ⟨"6", "Cathy"⟩]).2

end ConcreteExamples

namespace MemDBRef

/-- Heap extension: `h'` is `h` with some newly allocated values appended.
Every operation of the reference model only extends the heap (the JS code
never writes through an existing reference). -/
def heapLe (h h' : Heap α) : Prop := ∃ t, h'.data = h.data ++ t

/-- The record values behind a list of addresses. -/
def readList [Inhabited α] (h : Heap (MemDB.Rec α)) (as : List Nat) :
    List (MemDB.Rec α) := as.map h.readD

end MemDBRef

section RefExamples

open MemDB MemDBRef

/-- A caller-side heap holding one record object (at address 0). -/
def callerHeap : Heap (Rec String) := ⟨[⟨"x", "vx"⟩]⟩

/-- An empty reference-level store sharing the caller's heap. -/
def refSt0 : State String := { heap := callerHeap, cache := [], array := [] }

/-- The store after the caller saves its record: the heap holds the caller's
object, the stored clone and the returned clone; the mapping and sequence
hold the stored clone's address. -/
def refSt1 : State String := (save1Ref refSt0 0).1

/-- A matcher that records, in `extra`, every address it is handed. -/
def captureMatcher : RefMatcher String (List Nat) :=
  fun _ a ctx => (false, ctx.extra ++ [a])

/-- A matcher that matches exactly when its argument is one of the store's
internal sequence addresses — i.e. when the engine hands it a live internal
reference. -/
def detectMatcher : RefMatcher String (List Nat) :=
  fun _ a ctx => (decide (a ∈ refSt1.array), ctx.extra)

/-- A stopper that never stops (reference level). -/
def refStopNever : RefStopper String (List Nat) := fun _ _ => false

/-- A value-level matcher for the determinism witness: match records whose
attributes read "vx", counting invocations in `extra`. -/
def witnessF : Rec String → List (Rec String) → Nat → Nat → Nat → Bool × Nat :=
  fun r _ _ _ e => (decide (r.attrs = "vx"), e + 1)

/-- A value-level stopper for the determinism witness: stop once a result
exists. -/
def witnessG : List (Rec String) → Nat → Nat → Nat → Bool :=
  fun res _ _ _ => decide (0 < res.length)

end RefExamples

/-!
Helper lemmas about the mapping primitives.
-/

namespace MemDB

variable {β : Type}

theorem lookupId_insertId_self (c : List (String × β)) (k : String) (v : β) :
    lookupId (insertId c k v) k = some v := by
  induction c with
  | nil => simp [insertId, lookupId]
  | cons hd tl ih =>
    obtain ⟨k', w⟩ := hd
    by_cases h : k' = k <;> simp [insertId, lookupId, h, ih]

theorem lookupId_insertId_ne (c : List (String × β)) {k k' : String} (v : β)
    (h : k' ≠ k) : lookupId (insertId c k v) k' = lookupId c k' := by
  have h2 : k ≠ k' := Ne.symm h
  induction c with
  | nil => simp [insertId, lookupId, h2]
  | cons hd tl ih =>
    obtain ⟨k0, w⟩ := hd
    by_cases h0 : k0 = k
    · subst h0
      simp [insertId, lookupId, h2]
    · by_cases h1 : k0 = k'
      · subst h1
        simp [insertId, lookupId, h0]
      · simp [insertId, lookupId, h0, h1, ih]

theorem lookupId_eq_none_iff (c : List (String × β)) (k : String) :
    lookupId c k = none ↔ k ∉ c.map Prod.fst := by
  induction c with
  | nil => simp [lookupId]
  | cons hd tl ih =>
    obtain ⟨k0, w⟩ := hd
    by_cases h : k0 = k
    · simp [lookupId, h]
    · have h2 : k ≠ k0 := Ne.symm h
      simp [lookupId, h, h2, ih]

theorem insertId_keys_of_mem (c : List (String × β)) (k : String) (v : β)
    (h : k ∈ c.map Prod.fst) :
    (insertId c k v).map Prod.fst = c.map Prod.fst := by
  induction c with
  | nil => simp at h
  | cons hd tl ih =>
    obtain ⟨k0, w⟩ := hd
    by_cases h0 : k0 = k
    · simp [insertId, h0]
    · simp only [List.map_cons, List.mem_cons] at h
      rcases h with h | h
      · exact absurd h.symm h0
      · simp [insertId, h0, ih h]

theorem insertId_keys_of_not_mem (c : List (String × β)) (k : String) (v : β)
    (h : k ∉ c.map Prod.fst) :
    (insertId c k v).map Prod.fst = c.map Prod.fst ++ [k] := by
  induction c with
  | nil => simp [insertId]
  | cons hd tl ih =>
    obtain ⟨k0, w⟩ := hd
    simp only [List.map_cons, List.mem_cons] at h
    push_neg at h
    have h2 : k0 ≠ k := Ne.symm h.1
    simp [insertId, h2, ih h.2]

theorem eraseId_keys (c : List (String × β)) (k : String) :
    (eraseId c k).map Prod.fst = (c.map Prod.fst).erase k := by
  induction c with
  | nil => simp [eraseId]
  | cons hd tl ih =>
    obtain ⟨k0, w⟩ := hd
    by_cases h : k0 = k <;> simp [eraseId, h, List.erase_cons, ih]

theorem lookupId_eraseId_ne (c : List (String × β)) {k k' : String}
    (h : k' ≠ k) : lookupId (eraseId c k) k' = lookupId c k' := by
  have h2 : k ≠ k' := Ne.symm h
  induction c with
  | nil => simp [eraseId]
  | cons hd tl ih =>
    obtain ⟨k0, w⟩ := hd
    by_cases h0 : k0 = k
    · subst h0
      simp [eraseId, lookupId, h2]
    · by_cases h1 : k0 = k'
      · subst h1
        simp [eraseId, lookupId, h0]
      · simp [eraseId, lookupId, h0, h1, ih]

theorem lookupId_eraseId_self (c : List (String × β)) (k : String)
    (hnd : (c.map Prod.fst).Nodup) : lookupId (eraseId c k) k = none := by
  induction c with
  | nil => simp [eraseId, lookupId]
  | cons hd tl ih =>
    obtain ⟨k0, w⟩ := hd
    simp only [List.map_cons, List.nodup_cons] at hnd
    by_cases h : k0 = k
    · subst h
      simpa [eraseId, lookupId_eq_none_iff] using hnd.1
    · simp [eraseId, lookupId, h, ih hnd.2]

theorem findById_foldl_acc {α : Type} (st : StoreState α) (ids : List String)
    (acc : List (Rec α)) :
    (ids.foldl
      (fun results id =>
        match lookupId st.cache id with
        | some obj => results ++ [obj]
        | none => results)
      acc)
    = acc ++ ids.filterMap (lookupId st.cache) := by
  induction ids generalizing acc with
  | nil => simp
  | cons i rest ih =>
    cases h : lookupId st.cache i <;>
      simp [List.foldl_cons, List.filterMap_cons, h, ih]

theorem findById_eq_filterMap {α : Type} (st : StoreState α)
    (ids : List String) :
    findById st ids = ids.filterMap (lookupId st.cache) := by
  simpa using findById_foldl_acc st ids []

end MemDB

/-- Claim C10: `new(p)` returns `p` merged with a freshly generated
identifier (the generated identifier overwrites any identifier carried by
`p`), and the call leaves the store's mapping, ordered sequence and count
completely unchanged. -/
theorem c10_new_fresh_id_no_mutation {α : Type} (g : Nat → String)
    (st : MemDB.StoreState α) (p : MemDB.Part α) :
    (MemDB.newRec g st p).1 = ⟨g st.nextId, p.attrs⟩ ∧
    (∀ x : String, (MemDB.newRec g st { p with id := some x }).1.id = g st.nextId) ∧
    (MemDB.newRec g st p).2.cache = st.cache ∧
    (MemDB.newRec g st p).2.array = st.array ∧
    MemDB.countModels (MemDB.newRec g st p).2 = MemDB.countModels st :=
  ⟨rfl, fun _ => rfl, rfl, rfl, rfl⟩

/-- Claim C6: `findById` returns one copy per requested identifier present
in the mapping, in request order, silently skipping absent identifiers (so
the result is at most as long as the request); in the concrete seven-record
contact store, requesting 4, 6, NOT FOUND, 1 yields records 4, 6, 1. -/
theorem c6_findById_request_order :
    (∀ {α : Type} (st : MemDB.StoreState α) (ids : List String),
      MemDB.findById st ids = ids.filterMap (MemDB.lookupId st.cache) ∧
      (MemDB.findById st ids).length ≤ ids.length) ∧
    MemDB.findById contactStore ["4", "6", "NOT FOUND", "1"] =
      [⟨"4", "Rick"⟩, ⟨"6", "Cathy"⟩, ⟨"1", "Bob"⟩] := by
  refine ⟨fun st ids => ⟨MemDB.findById_eq_filterMap st ids, ?_⟩, by decide⟩
  rw [MemDB.findById_eq_filterMap st ids]
  exact List.length_filterMap_le _ _

/-- Claim C1 (code bug): after inserting A, B, C in order and then saving an
updated B (same identifier, changed attributes), `getAll` still returns B's
original attributes in B's position — the mapping entry was replaced by a
new copy, so the sequence slot keeps the pre-update record — while
`findById` on the same identifier already returns the new attributes. -/
theorem c1_update_not_visible_in_getAll :
    MemDB.getAll stABC2 = [recA, recB, recC] ∧
    MemDB.getAll stABC2 ≠ [recA, recB2, recC] ∧
    MemDB.findById stABC2 ["idB"] = [recB2] := by decide

/-- Claim C4 (code bug): a reverse scan's loop condition is `index > 0`, so
index 0 is never visited: over the three-record store [A, B, C], a reverse
`find` with an all-matching matcher and a never-true stopper returns
[C, B] — record A at index 0 is missing, contradicting the claimed
"down to and including index 0". -/
theorem c4_reverse_scan_never_visits_index_zero :
    MemDB.getAll stABC = [recA, recB, recC] ∧
    MemDB.find stABC matchAll stopNever { reverse := true } = [recC, recB] ∧
    MemDB.find stABC matchAll stopNever { reverse := true } ≠ [recC, recB, recA] := by
  decide

namespace MemDB

theorem clampStart_zero_len (v : Int) : clampStart 0 v = 0 := by
  unfold clampStart
  omega

theorem clampStart_le (len : Nat) (v : Int) : clampStart len v ≤ len - 1 := by
  unfold clampStart
  omega

theorem effStart_zero_len (rev : Bool) (si : Option Int) :
    effStart 0 rev si = 0 := by
  unfold effStart
  exact clampStart_zero_len _

theorem effStart_le (len : Nat) (rev : Bool) (si : Option Int) :
    effStart len rev si ≤ len - 1 := by
  unfold effStart
  exact clampStart_le _ _

theorem visitIdxs_zero_len (rev : Bool) : visitIdxs 0 rev 0 = [] := by
  cases rev <;> simp [visitIdxs]

theorem visitIdxs_lt (len : Nat) (rev : Bool) (si : Option Int) :
    ∀ i ∈ visitIdxs len rev (effStart len rev si), i < len := by
  intro i hi
  have hle : effStart len rev si ≤ len - 1 := effStart_le len rev si
  by_cases h0 : len = 0
  · subst h0
    rw [effStart_zero_len, visitIdxs_zero_len] at hi
    simp at hi
  · unfold visitIdxs at hi
    cases rev with
    | true =>
      rw [if_pos rfl] at hi
      rw [List.mem_reverse, List.mem_range'_1] at hi
      omega
    | false =>
      rw [if_neg (by decide)] at hi
      rw [List.mem_range'_1] at hi
      omega

theorem find_on_empty {α Ext : Type} [Inhabited α] [Inhabited Ext]
    (st : StoreState α)
    (matcher : Rec α → FindContext (Rec α) Ext → Bool × Ext)
    (stopper : FindContext (Rec α) Ext → Bool)
    (opts : FindOptions Ext) (h : st.array = []) :
    find st matcher stopper opts = [] := by
  unfold find
  rw [h]
  simp [effStart_zero_len, visitIdxs_zero_len, runFind]

end MemDB

/-- Claim C7 counterexample: with a three-record store, `reverse = true` and
`startingIndex = 0`, the claimed effective start is `clampStart 3 0 = 0`,
but the code treats a `startingIndex` of `0` like an absent one (JS `||`),
starts at index 2 and returns the records at indices 2 and 1. -/
theorem c7_zero_startingIndex_counterexample :
    MemDB.effStart 3 true (some 0) = 2 ∧
    MemDB.clampStart 3 0 = 0 ∧
    MemDB.find stABC matchAll stopNever
      { reverse := true, startingIndex := some 0 } = [recC, recB] := by
  decide

/-- Claim C7 (amended): the effective starting position is
`options.startingIndex` clamped into `[0, length-1]` EXCEPT that a
`startingIndex` of `0` is treated as unspecified (for a reverse scan that
yields `length-1`; for a forward scan the result is `0` either way); when
unspecified it is `length-1` for reverse scans and `0` for forward scans;
every visited index is in range; and on an empty collection the scan
performs zero iterations — the result is `[]` for every matcher and
stopper, which are therefore never consulted. -/
theorem c7_starting_position_amended :
    (∀ (len : Nat) (v : Int), v ≠ 0 →
      MemDB.effStart len true (some v) = MemDB.clampStart len v ∧
      MemDB.effStart len false (some v) = MemDB.clampStart len v) ∧
    (∀ len : Nat,
      MemDB.effStart len true none = MemDB.clampStart len ((len : Int) - 1) ∧
      MemDB.effStart len false none = MemDB.clampStart len 0 ∧
      MemDB.effStart len true (some 0) = MemDB.clampStart len ((len : Int) - 1) ∧
      MemDB.effStart len false (some 0) = MemDB.clampStart len 0) ∧
    (∀ (len : Nat) (v : Int), 0 < len →
      MemDB.clampStart len v ≤ len - 1) ∧
    (∀ (len : Nat) (rev : Bool) (si : Option Int),
      ∀ i ∈ MemDB.visitIdxs len rev (MemDB.effStart len rev si), i < len) ∧
    (∀ {α Ext : Type} [Inhabited α] [Inhabited Ext]
      (st : MemDB.StoreState α)
      (matcher : MemDB.Rec α → MemDB.FindContext (MemDB.Rec α) Ext → Bool × Ext)
      (stopper : MemDB.FindContext (MemDB.Rec α) Ext → Bool)
      (opts : MemDB.FindOptions Ext),
      st.array = [] → MemDB.find st matcher stopper opts = []) := by
  refine ⟨fun len v hv => ⟨?_, ?_⟩, fun len => ⟨rfl, rfl, ?_, ?_⟩,
    fun len v _ => MemDB.clampStart_le len v, MemDB.visitIdxs_lt,
    fun st matcher stopper opts h => MemDB.find_on_empty st matcher stopper opts h⟩
  · simp [MemDB.effStart, hv]
  · simp [MemDB.effStart, hv]
  · simp [MemDB.effStart]
  · simp [MemDB.effStart]

/-- Witness for the amended C7 theorem at concrete inputs. -/
theorem c7_starting_position_witness :
    MemDB.effStart 5 true (some 3) = MemDB.clampStart 5 3 ∧
    MemDB.clampStart 7 99 ≤ 6 ∧
    MemDB.find (MemDB.emptyState (α := String)) matchAll stopNever
      { reverse := true } = [] := by
  refine ⟨(c7_starting_position_amended.1 5 3 (by decide)).1, ?_, ?_⟩
  · exact c7_starting_position_amended.2.2.1 7 99 (by decide)
  · exact c7_starting_position_amended.2.2.2.2 (MemDB.emptyState (α := String))
      matchAll stopNever { reverse := true } rfl

namespace MemDB

theorem registry_foldl_skip {α : Type} (parts : List (RegistryPart α))
    (acc : List (String × StoreState α) × List (String × ShapeDecl))
    (name : String) (h : name ∉ parts.map RegistryPart.name) :
    lookupId (parts.foldl registryStep acc).1 name = lookupId acc.1 name ∧
    lookupId (parts.foldl registryStep acc).2 name = lookupId acc.2 name := by
  induction parts generalizing acc with
  | nil => exact ⟨rfl, rfl⟩
  | cons p rest ih =>
    simp only [List.map_cons, List.mem_cons] at h
    push_neg at h
    obtain ⟨h1, h2⟩ := h
    rw [List.foldl_cons]
    obtain ⟨ta, tb⟩ := ih (registryStep acc p) h2
    constructor
    · rw [ta]
      unfold registryStep
      by_cases hv : p.valid
      · simp only [hv, Bool.not_true, Bool.false_eq_true, if_false]
        exact lookupId_insertId_ne _ _ h1
      · simp only [Bool.not_eq_true] at hv
        simp [hv]
    · rw [tb]
      unfold registryStep
      by_cases hv : p.valid
      · simp only [hv, Bool.not_true, Bool.false_eq_true, if_false]
        exact lookupId_insertId_ne _ _ h1
      · simp only [Bool.not_eq_true] at hv
        simp [hv]

theorem makeParts_cons {α : Type} (k : String) (d0 : ShapeDecl)
    (rest : List (String × ShapeDecl)) :
    makeParts ((k, d0) :: rest) (α := α)
      = { valid := isValidSchema d0, name := k,
          schema := emptyState, zod := d0 } :: makeParts rest := rfl

theorem makeParts_names {α : Type} (settings : List (String × ShapeDecl)) :
    (makeParts settings (α := α)).map RegistryPart.name
      = settings.map Prod.fst := by
  unfold makeParts
  rw [List.map_map]
  rfl

theorem registry_build {α : Type} :
    ∀ (settings : List (String × ShapeDecl))
      (acc : List (String × StoreState α) × List (String × ShapeDecl))
      (name : String) (d : ShapeDecl),
      (settings.map Prod.fst).Nodup → (name, d) ∈ settings →
      lookupId acc.1 name = none → lookupId acc.2 name = none →
      lookupId ((makeParts settings (α := α)).foldl registryStep acc).1 name
        = (if isValidSchema d then some emptyState else none) ∧
      lookupId ((makeParts settings (α := α)).foldl registryStep acc).2 name
        = (if isValidSchema d then some d else none) := by
  intro settings
  induction settings with
  | nil =>
    intro acc name d _ hmem
    simp at hmem
  | cons hd rest ih =>
    intro acc name d hnd hmem ha1 ha2
    obtain ⟨k, d0⟩ := hd
    simp only [List.map_cons, List.nodup_cons] at hnd
    obtain ⟨hk, hndrest⟩ := hnd
    rw [makeParts_cons, List.foldl_cons]
    by_cases hkn : k = name
    · subst hkn
      have hd0 : d0 = d := by
        rcases List.mem_cons.mp hmem with h | h
        · exact (congrArg Prod.snd h).symm
        · exact absurd (List.mem_map.mpr ⟨(k, d), h, rfl⟩) hk
      subst hd0
      have hrest : k ∉ (makeParts rest (α := α)).map RegistryPart.name := by
        rw [makeParts_names]
        exact hk
      obtain ⟨sa, sb⟩ := registry_foldl_skip (makeParts rest (α := α))
        (registryStep acc
          { valid := isValidSchema d0, name := k, schema := emptyState, zod := d0 })
        k hrest
      rw [sa, sb]
      by_cases hv : isValidSchema d0
      · simp [registryStep, hv, lookupId_insertId_self]
      · simp [registryStep, hv, ha1, ha2]
    · have hmem2 : (name, d) ∈ rest := by
        rcases List.mem_cons.mp hmem with h | h
        · exact absurd (congrArg Prod.fst h).symm hkn
        · exact h
      have hne : name ≠ k := fun e => hkn e.symm
      have hb1 : lookupId (registryStep acc
          { valid := isValidSchema d0, name := k, schema := emptyState (α := α),
            zod := d0 }).1 name = none := by
        by_cases hv : isValidSchema d0
        · simp [registryStep, hv, lookupId_insertId_ne _ _ hne, ha1]
        · simp [registryStep, hv, ha1]
      have hb2 : lookupId (registryStep acc
          { valid := isValidSchema d0, name := k, schema := emptyState (α := α),
            zod := d0 }).2 name = none := by
        by_cases hv : isValidSchema d0
        · simp [registryStep, hv, lookupId_insertId_ne _ _ hne, ha2]
        · simp [registryStep, hv, ha2]
      exact ih (registryStep acc
        { valid := isValidSchema d0, name := k, schema := emptyState, zod := d0 })
        name d hndrest hmem2 hb1 hb2

end MemDB

/-- Claim C8: a settings entry whose declaration is not an object-shaped
schema is silently excluded — it appears in neither the returned store
(schema) map nor the shape-lookup (zod) map — while every valid entry gets
a (fresh, empty) collection store and its original declaration in the
parallel map. -/
theorem c8_invalid_shapes_excluded {α : Type}
    (settings : List (String × MemDB.ShapeDecl)) (name : String)
    (d : MemDB.ShapeDecl)
    (hnd : (settings.map Prod.fst).Nodup) (hmem : (name, d) ∈ settings) :
    (MemDB.isValidSchema d = false →
      MemDB.lookupId (MemDB.makeSchemaDB (α := α) settings).1 name = none ∧
      MemDB.lookupId (MemDB.makeSchemaDB (α := α) settings).2 name = none) ∧
    (MemDB.isValidSchema d = true →
      MemDB.lookupId (MemDB.makeSchemaDB (α := α) settings).1 name
        = some MemDB.emptyState ∧
      MemDB.lookupId (MemDB.makeSchemaDB (α := α) settings).2 name = some d) := by
  obtain ⟨ra, rb⟩ := MemDB.registry_build settings ([], []) name d hnd hmem rfl rfl
  constructor
  · intro hv
    rw [MemDB.makeSchemaDB, ra, rb]
    simp [hv]
  · intro hv
    rw [MemDB.makeSchemaDB, ra, rb]
    simp [hv]

/-- Witness for C8: a concrete settings list with one valid and one invalid
declaration. -/
theorem c8_invalid_shapes_witness :
    MemDB.lookupId (MemDB.makeSchemaDB (α := String)
      [("contact", MemDB.ShapeDecl.objectShape ["name"]),
       ("bogus", MemDB.ShapeDecl.otherShape "zstring")]).1 "bogus" = none ∧
    MemDB.lookupId (MemDB.makeSchemaDB (α := String)
      [("contact", MemDB.ShapeDecl.objectShape ["name"]),
       ("bogus", MemDB.ShapeDecl.otherShape "zstring")]).2 "contact"
      = some (MemDB.ShapeDecl.objectShape ["name"]) := by
  constructor
  · exact ((c8_invalid_shapes_excluded
      [("contact", MemDB.ShapeDecl.objectShape ["name"]),
       ("bogus", MemDB.ShapeDecl.otherShape "zstring")] "bogus"
      (MemDB.ShapeDecl.otherShape "zstring") (by decide) (by decide)).1 rfl).1
  · exact ((c8_invalid_shapes_excluded
      [("contact", MemDB.ShapeDecl.objectShape ["name"]),
       ("bogus", MemDB.ShapeDecl.otherShape "zstring")] "contact"
      (MemDB.ShapeDecl.objectShape ["name"]) (by decide) (by decide)).2 rfl).2

namespace MemDB

theorem eraseId_of_lookup_none (c : List (String × β)) (k : String)
    (h : lookupId c k = none) : eraseId c k = c := by
  induction c with
  | nil => rfl
  | cons hd tl ih =>
    obtain ⟨k0, w⟩ := hd
    by_cases h0 : k0 = k
    · rw [lookupId, if_pos h0] at h
      exact absurd h (by simp)
    · rw [lookupId, if_neg h0] at h
      simp [eraseId, h0, ih h]

theorem deleteLoop_cache_keys {α : Type} (c : List (String × Rec α))
    (ids : List String) :
    ((deleteLoop c ids).2).map Prod.fst
      = ids.foldl (fun ks i => ks.erase i) (c.map Prod.fst) := by
  induction ids generalizing c with
  | nil => rfl
  | cons i rest ih =>
    simp only [deleteLoop, List.foldl_cons]
    rw [ih (eraseId c i), eraseId_keys]

theorem foldl_erase_eq_filter (ks ids : List String) (h : ks.Nodup) :
    ids.foldl (fun ks i => ks.erase i) ks
      = ks.filter (fun x => decide (x ∉ ids)) := by
  induction ids generalizing ks with
  | nil => simp
  | cons i rest ih =>
    rw [List.foldl_cons, ih _ (h.erase i), h.erase_eq_filter i,
      List.filter_filter]
    apply List.filter_congr
    intro x _
    by_cases h1 : x = i
    · subst h1
      simp
    · by_cases h2 : x ∈ rest <;> simp [h1, h2]

theorem deleteLoop_cache_lookup {α : Type} (c : List (String × Rec α))
    (ids : List String) (id : String) (h : (c.map Prod.fst).Nodup) :
    lookupId (deleteLoop c ids).2 id
      = if id ∈ ids then none else lookupId c id := by
  induction ids generalizing c with
  | nil => simp [deleteLoop]
  | cons i rest ih =>
    have hnd2 : ((eraseId c i).map Prod.fst).Nodup := by
      rw [eraseId_keys]
      exact h.erase i
    simp only [deleteLoop]
    rw [ih _ hnd2]
    by_cases h1 : id = i
    · subst h1
      by_cases h2 : id ∈ rest
      · simp [h2]
      · simp [h2, lookupId_eraseId_self c id h]
    · by_cases h2 : id ∈ rest
      · simp [h1, h2]
      · simp [h1, h2, lookupId_eraseId_ne c h1]

theorem deleteLoop_deleted {α : Type} (c : List (String × Rec α))
    (ids : List String) (hnd : ids.Nodup) :
    (deleteLoop c ids).1 = ids.filterMap (lookupId c) := by
  induction ids generalizing c with
  | nil => rfl
  | cons i rest ih =>
    obtain ⟨hnotin, hndrest⟩ := List.nodup_cons.mp hnd
    have hcong : rest.filterMap (lookupId (eraseId c i))
        = rest.filterMap (lookupId c) := by
      apply List.filterMap_congr
      intro j hj
      exact lookupId_eraseId_ne c (fun e => hnotin (e ▸ hj))
    simp only [deleteLoop, List.filterMap_cons]
    rw [ih (eraseId c i) hndrest, hcong]
    cases hl : lookupId c i <;> simp [hl]

theorem deleteLoop_no_hits {α : Type} (c : List (String × Rec α))
    (ids : List String) (h : ∀ i ∈ ids, lookupId c i = none) :
    deleteLoop c ids = ([], c) := by
  induction ids with
  | nil => rfl
  | cons i rest ih =>
    have h1 : lookupId c i = none := h i (List.mem_cons_self i rest)
    rw [deleteLoop, eraseId_of_lookup_none c i h1,
      ih (fun j hj => h j (List.mem_cons_of_mem _ hj))]
    simp [h1]

theorem deleteFilterAux_eq_filter {α : Type} (arr : List (Rec α))
    (rem : List String) (h : (arr.map Rec.id).Nodup) :
    deleteFilterAux arr rem = arr.filter (fun m => decide (m.id ∉ rem)) := by
  induction arr generalizing rem with
  | nil => rfl
  | cons m rest ih =>
    simp only [List.map_cons, List.nodup_cons] at h
    obtain ⟨hm, hrest⟩ := h
    have hne : ∀ x ∈ rest, x.id ≠ m.id := by
      intro x hx he
      exact hm (he ▸ List.mem_map.mpr ⟨x, hx, rfl⟩)
    cases rem with
    | nil => simp [deleteFilterAux, ih [] hrest]
    | cons r rs =>
      by_cases hmem : m.id ∈ r :: rs
      · rw [deleteFilterAux, if_neg (by simp), if_pos hmem, ih _ hrest]
        have hcong : rest.filter (fun x => decide (x.id ∉ (r :: rs).erase m.id))
            = rest.filter (fun x => decide (x.id ∉ r :: rs)) := by
          apply List.filter_congr
          intro x hx
          exact decide_eq_decide.mpr
            (not_congr (List.mem_erase_of_ne (hne x hx)))
        rcases List.mem_cons.mp hmem with hc | hc <;>
          rw [hcong, List.filter_cons, if_neg (by simp [hc])]
      · rw [deleteFilterAux, if_neg (by simp), if_neg hmem, ih _ hrest,
          List.filter_cons, if_pos (by simpa using hmem)]

theorem emptyState_inv {α : Type} : stateInv (emptyState (α := α)) := by
  constructor <;> simp [emptyState]

theorem save1_array_of_isNew {α : Type} (st : StoreState α) (m : Rec α)
    (h : lookupId st.cache m.id = none) :
    (save1 st m).2.array = st.array ++ [m] := by
  simp [save1, h]

theorem save1_array_of_update {α : Type} (st : StoreState α) (m : Rec α)
    (h : (lookupId st.cache m.id).isSome) :
    (save1 st m).2.array = st.array := by
  cases hl : lookupId st.cache m.id with
  | none => rw [hl] at h; exact absurd h (by simp)
  | some v => simp [save1, hl]

theorem save1_inv {α : Type} (st : StoreState α) (m : Rec α)
    (h : stateInv st) : stateInv (save1 st m).2 := by
  obtain ⟨hnd, hperm⟩ := h
  cases hl : lookupId st.cache m.id with
  | none =>
    have hkeys : m.id ∉ st.cache.map Prod.fst := (lookupId_eq_none_iff _ _).mp hl
    have harr : m.id ∉ st.array.map Rec.id := fun hc => hkeys (hperm.mem_iff.mpr hc)
    constructor
    · simp only [save1, hl, Option.isNone_none, if_true]
      rw [List.map_append]
      refine List.Nodup.append hnd (List.nodup_singleton _) ?_
      intro a ha hb
      simp only [List.map_cons, List.map_nil, List.mem_singleton] at hb
      subst hb
      exact harr ha
    · simp only [save1, hl, Option.isNone_none, if_true]
      rw [List.map_append, insertId_keys_of_not_mem _ _ _ hkeys]
      exact hperm.append (List.Perm.refl _)
  | some v =>
    have hkeys : m.id ∈ st.cache.map Prod.fst := by
      by_contra hc
      rw [← lookupId_eq_none_iff] at hc
      rw [hl] at hc
      exact Option.noConfusion hc
    constructor
    · simpa [save1, hl] using hnd
    · simp only [save1, hl, Option.isNone_some]
      rw [if_neg (by simp)]
      rw [insertId_keys_of_mem _ _ _ hkeys]
      exact hperm

theorem save_inv {α : Type} (ms : List (Rec α)) :
    ∀ (st : StoreState α), stateInv st → stateInv (save st ms).2 := by
  induction ms with
  | nil => intro st h; exact h
  | cons m rest ih =>
    intro st h
    simp only [save]
    exact ih _ (save1_inv st m h)

theorem newBatch_collection {α : Type} (g : Nat → String) (ps : List (Part α)) :
    ∀ (st : StoreState α),
      (newBatch g st ps).2.cache = st.cache ∧
      (newBatch g st ps).2.array = st.array := by
  induction ps with
  | nil => intro st; exact ⟨rfl, rfl⟩
  | cons p rest ih =>
    intro st
    simp only [newBatch]
    exact ih _

theorem create_inv {α : Type} (g : Nat → String) (st : StoreState α)
    (ps : List (Part α)) (h : stateInv st) : stateInv (create g st ps).2 := by
  simp only [create]
  apply save_inv
  obtain ⟨hc, ha⟩ := newBatch_collection g ps st
  obtain ⟨h1, h2⟩ := h
  constructor
  · rw [ha]; exact h1
  · rw [ha, hc]; exact h2

theorem deleteById_inv {α : Type} (st : StoreState α) (ids : List String)
    (h : stateInv st) : stateInv (deleteById st ids).2 := by
  obtain ⟨hnd, hperm⟩ := h
  by_cases he : ids.isEmpty
  · simp only [deleteById, he, if_true]
    exact ⟨hnd, hperm⟩
  · have hkeysnd : (st.cache.map Prod.fst).Nodup := hperm.nodup_iff.mpr hnd
    have harr : (deleteById st ids).2.array
        = st.array.filter ((fun x => decide (x ∉ ids)) ∘ Rec.id) := by
      rw [deleteById, if_neg he]
      exact deleteFilterAux_eq_filter st.array ids hnd
    have hcache : (deleteById st ids).2.cache = (deleteLoop st.cache ids).2 := by
      rw [deleteById, if_neg he]
    refine ⟨?_, ?_⟩
    · rw [harr, ← List.filter_map]
      exact hnd.filter _
    · rw [hcache, harr, deleteLoop_cache_keys st.cache ids,
        foldl_erase_eq_filter _ ids hkeysnd, ← List.filter_map]
      exact hperm.filter _

end MemDB

namespace MemDB

theorem stateInv_lookup_iff {α : Type} (st : StoreState α) (h : stateInv st)
    (id : String) :
    (lookupId st.cache id).isSome ↔ id ∈ st.array.map Rec.id := by
  obtain ⟨_, hperm⟩ := h
  rw [← hperm.mem_iff]
  constructor
  · intro hs
    by_contra hc
    rw [← lookupId_eq_none_iff] at hc
    rw [hc] at hs
    simp at hs
  · intro hm
    cases hl : lookupId st.cache id with
    | none => exact absurd hm (by rwa [lookupId_eq_none_iff] at hl)
    | some v => rfl

theorem deleteById_array_sublist {α : Type} (st : StoreState α)
    (ids : List String) (h : stateInv st) :
    (deleteById st ids).2.array.Sublist st.array := by
  by_cases he : ids.isEmpty
  · rw [deleteById, if_pos he]
  · rw [deleteById, if_neg he]
    show (deleteFilterAux st.array ids).Sublist st.array
    rw [deleteFilterAux_eq_filter st.array ids h.1]
    exact List.filter_sublist _

theorem deleteFilterAux_no_hits {α : Type} (st : StoreState α)
    (ids : List String) (h : stateInv st)
    (hno : ∀ i ∈ ids, lookupId st.cache i = none) :
    deleteFilterAux st.array ids = st.array := by
  rw [deleteFilterAux_eq_filter st.array ids h.1]
  apply List.filter_eq_self.mpr
  intro m hm
  apply decide_eq_true
  intro hin
  have hnone : lookupId st.cache m.id = none := hno m.id hin
  have : ¬(lookupId st.cache m.id).isSome := by rw [hnone]; simp
  exact this ((stateInv_lookup_iff st h m.id).mpr
    (List.mem_map.mpr ⟨m, hm, rfl⟩))

end MemDB

/-- Claim C2 (code bug): in the snapshot that implements `deleteById`, the
cache is a Map but `save` still tests newness with the JS `in` operator
(`!(key in collection.cache)`), which inspects the Map object's properties
rather than its entries and is false for ordinary identifiers.  Saving an
existing identifier therefore appends a second clone to the sequence while
the mapping keeps a single entry, so the mapping and the sequence no longer
contain the same set of records by identifier; a subsequent `deleteById`
then removes only the first occurrence and leaves a record in the sequence
whose identifier is absent from the mapping.  (The primary snapshot's
object-keyed `save1` does preserve the coherence invariant, as the
supporting lemmas `save1_inv`, `save_inv`, `create_inv` and `deleteById_inv`
show, which is why the spec's invariant is the evident intent and the
Map-membership test the slip.) -/
theorem c2_map_save_breaks_coherence :
    ((MemDB.saveMap (MemDB.saveMap MemDB.emptyState [recB]).2 [recB2]).2.array.map
        MemDB.Rec.id) = ["idB", "idB"] ∧
    (MemDB.saveMap (MemDB.saveMap MemDB.emptyState [recB]).2 [recB2]).2.cache
      = [("idB", recB2)] ∧
    ¬ MemDB.stateInv
        (MemDB.saveMap (MemDB.saveMap MemDB.emptyState [recB]).2 [recB2]).2 ∧
    (MemDB.deleteById
        (MemDB.saveMap (MemDB.saveMap MemDB.emptyState [recB]).2 [recB2]).2
        ["idB"]).2.array = [recB2] ∧
    MemDB.lookupId
        (MemDB.deleteById
          (MemDB.saveMap (MemDB.saveMap MemDB.emptyState [recB]).2 [recB2]).2
          ["idB"]).2.cache "idB" = none := by
  decide

/-- Claim C5: `deleteById` with zero identifiers returns empty without
touching the store; with identifiers, the result is the pre-removal mapping
entry of each identifier that was actually found, in request order; every
requested identifier is removed from the mapping; the surviving sequence is
exactly the original sequence filtered (relative order preserved); and a
call naming only absent identifiers returns empty and changes no state. -/
theorem c5_deleteById_contract :
    (∀ {α : Type} (st : MemDB.StoreState α), MemDB.deleteById st [] = ([], st)) ∧
    (∀ {α : Type} (st : MemDB.StoreState α) (ids : List String),
      ids.Nodup →
      (MemDB.deleteById st ids).1 = ids.filterMap (MemDB.lookupId st.cache)) ∧
    (∀ {α : Type} (st : MemDB.StoreState α) (ids : List String) (id : String),
      MemDB.stateInv st →
      MemDB.lookupId (MemDB.deleteById st ids).2.cache id
        = if id ∈ ids then none else MemDB.lookupId st.cache id) ∧
    (∀ {α : Type} (st : MemDB.StoreState α) (ids : List String),
      MemDB.stateInv st →
      (MemDB.deleteById st ids).2.array
        = st.array.filter (fun m => decide (m.id ∉ ids))) ∧
    (∀ {α : Type} (st : MemDB.StoreState α) (ids : List String),
      MemDB.stateInv st → (∀ i ∈ ids, MemDB.lookupId st.cache i = none) →
      MemDB.deleteById st ids = ([], st)) := by
  refine ⟨fun st => rfl, ?_, ?_, ?_, ?_⟩
  · intro α st ids hnd
    by_cases he : ids.isEmpty
    · rw [List.isEmpty_iff.mp he]
      rfl
    · rw [MemDB.deleteById, if_neg he]
      exact MemDB.deleteLoop_deleted st.cache ids hnd
  · intro α st ids id h
    by_cases he : ids.isEmpty
    · rw [List.isEmpty_iff.mp he]
      have hred : MemDB.deleteById st ([] : List String) = ([], st) := rfl
      rw [hred]
      simp
    · rw [MemDB.deleteById, if_neg he]
      exact MemDB.deleteLoop_cache_lookup st.cache ids id
        (h.2.nodup_iff.mpr h.1)
  · intro α st ids h
    by_cases he : ids.isEmpty
    · rw [List.isEmpty_iff.mp he]
      simp [MemDB.deleteById]
    · rw [MemDB.deleteById, if_neg he]
      exact MemDB.deleteFilterAux_eq_filter st.array ids h.1
  · intro α st ids h hno
    by_cases he : ids.isEmpty
    · rw [List.isEmpty_iff.mp he]
      rfl
    · rw [MemDB.deleteById, if_neg he,
        MemDB.deleteLoop_no_hits st.cache ids hno,
        MemDB.deleteFilterAux_no_hits st ids h hno]

/-- Witness for C5 at a concrete store: deleting an existing and an absent
identifier removes only the existing one, returns its pre-removal value and
keeps the survivors in order. -/
theorem c5_deleteById_witness :
    (MemDB.deleteById stABC ["idB", "nope"]).1 = [recB] ∧
    MemDB.lookupId (MemDB.deleteById stABC ["idB", "nope"]).2.cache "idB"
      = none ∧
    (MemDB.deleteById stABC ["idB", "nope"]).2.array = [recA, recC] ∧
    MemDB.deleteById stABC ["nope"] = ([], stABC) := by
  refine ⟨?_, ?_, ?_, ?_⟩
  · rw [c5_deleteById_contract.2.1 stABC ["idB", "nope"] (by decide)]
    decide
  · rw [c5_deleteById_contract.2.2.1 stABC ["idB", "nope"] "idB" (by decide)]
    decide
  · rw [c5_deleteById_contract.2.2.2.1 stABC ["idB", "nope"] (by decide)]
    decide
  · exact c5_deleteById_contract.2.2.2.2 stABC ["nope"] (by decide) (by decide)

namespace MemDBRef

open MemDB (Rec lookupId insertId)

theorem heapLe_refl {α : Type} (h : Heap α) : heapLe h h := ⟨[], by simp⟩

theorem heapLe_trans {α : Type} {h1 h2 h3 : Heap α} (a : heapLe h1 h2)
    (b : heapLe h2 h3) : heapLe h1 h3 := by
  obtain ⟨t1, e1⟩ := a
  obtain ⟨t2, e2⟩ := b
  exact ⟨t1 ++ t2, by rw [e2, e1, List.append_assoc]⟩

theorem heapLe_size {α : Type} {h h' : Heap α} (a : heapLe h h') :
    h.size ≤ h'.size := by
  obtain ⟨t, e⟩ := a
  simp [Heap.size, e]

theorem heapLe_read {α : Type} {h h' : Heap α} (hle : heapLe h h') {a : Nat}
    (ha : a < h.size) : h'.read a = h.read a := by
  obtain ⟨t, e⟩ := hle
  simp only [Heap.read, e]
  exact List.getElem?_append_left ha

theorem heapLe_readD {α : Type} [Inhabited α] {h h' : Heap α}
    (hle : heapLe h h') {a : Nat} (ha : a < h.size) :
    h'.readD a = h.readD a := by
  unfold Heap.readD
  rw [heapLe_read hle ha]

theorem clone_heapLe {α : Type} [Inhabited α] (h : Heap α) (a : Nat) :
    heapLe h (clone h a).1 := ⟨[h.readD a], rfl⟩

theorem clone_addr {α : Type} [Inhabited α] (h : Heap α) (a : Nat) :
    (clone h a).2 = h.size := rfl

theorem clone_size {α : Type} [Inhabited α] (h : Heap α) (a : Nat) :
    (clone h a).1.size = h.size + 1 := by
  simp [clone, Heap.alloc, Heap.size]

theorem clone_read_new {α : Type} [Inhabited α] (h : Heap α) (a : Nat) :
    (clone h a).1.readD (clone h a).2 = h.readD a := by
  unfold clone Heap.alloc Heap.readD Heap.read
  simp [List.getElem?_concat_length]

theorem readList_heapLe {α : Type} [Inhabited α] {h h' : Heap (Rec α)}
    (hle : heapLe h h') (as : List Nat) (ha : ∀ x ∈ as, x < h.size) :
    readList h' as = readList h as := by
  unfold readList
  exact List.map_congr_left fun x hx => heapLe_readD hle (ha x hx)

theorem cloneList_spec {α : Type} [Inhabited α] (as : List Nat) :
    ∀ (h : Heap (Rec α)),
      heapLe h (cloneList h as).1 ∧
      (∀ x ∈ (cloneList h as).2, h.size ≤ x) := by
  induction as with
  | nil => intro h; exact ⟨heapLe_refl h, by simp [cloneList]⟩
  | cons a rest ih =>
    intro h
    obtain ⟨hle, hfresh⟩ := ih (clone h a).1
    refine ⟨heapLe_trans (clone_heapLe h a) hle, ?_⟩
    intro x hx
    simp only [cloneList, List.mem_cons] at hx
    rcases hx with hx | hx
    · rw [hx, clone_addr]
    · have h1 := hfresh x hx
      have h2 : h.size ≤ (clone h a).1.size := heapLe_size (clone_heapLe h a)
      omega

theorem cloneList_values {α : Type} [Inhabited α] (as : List Nat) :
    ∀ (h : Heap (Rec α)), (∀ x ∈ as, x < h.size) →
      readList (cloneList h as).1 (cloneList h as).2 = readList h as := by
  induction as with
  | nil => intro h _; rfl
  | cons a rest ih =>
    intro h hv
    have hasz : a < h.size := hv a (List.mem_cons_self a rest)
    have hrest : ∀ x ∈ rest, x < (clone h a).1.size := by
      intro x hx
      have := hv x (List.mem_cons_of_mem a hx)
      rw [clone_size]
      omega
    obtain ⟨hle2, _⟩ := cloneList_spec rest (clone h a).1
    have hnewlt : (clone h a).2 < (clone h a).1.size := by
      rw [clone_addr, clone_size]
      omega
    show readList (cloneList (clone h a).1 rest).1
        ((clone h a).2 :: (cloneList (clone h a).1 rest).2)
      = h.readD a :: readList h rest
    rw [show readList (cloneList (clone h a).1 rest).1
        ((clone h a).2 :: (cloneList (clone h a).1 rest).2)
      = (cloneList (clone h a).1 rest).1.readD (clone h a).2
        :: readList (cloneList (clone h a).1 rest).1
            (cloneList (clone h a).1 rest).2 from rfl]
    rw [heapLe_readD hle2 hnewlt, clone_read_new h a, ih _ hrest,
      readList_heapLe (clone_heapLe h a) rest
        (fun x hx => hv x (List.mem_cons_of_mem a hx))]

theorem findByIdLoop_spec {α : Type} [Inhabited α]
    (cache : List (String × Nat)) (ids : List String) :
    ∀ (h : Heap (Rec α)),
      heapLe h (findByIdLoop cache h ids).1 ∧
      (∀ x ∈ (findByIdLoop cache h ids).2, h.size ≤ x) := by
  induction ids with
  | nil => intro h; exact ⟨heapLe_refl h, by simp [findByIdLoop]⟩
  | cons id rest ih =>
    intro h
    cases hl : lookupId cache id with
    | none =>
      obtain ⟨hle, hfresh⟩ := ih h
      constructor
      · simpa [findByIdLoop, hl] using hle
      · intro x hx
        simp only [findByIdLoop, hl] at hx
        exact hfresh x hx
    | some a =>
      obtain ⟨hle, hfresh⟩ := ih (clone h a).1
      constructor
      · simp only [findByIdLoop, hl]
        exact heapLe_trans (clone_heapLe h a) hle
      · intro x hx
        simp only [findByIdLoop, hl, List.mem_cons] at hx
        rcases hx with hx | hx
        · rw [hx, clone_addr]
        · have h1 := hfresh x hx
          have h2 : h.size ≤ (clone h a).1.size :=
            heapLe_size (clone_heapLe h a)
          omega

end MemDBRef

namespace MemDB

theorem insertId_snd_mem (c : List (String × β)) (k : String) (v : β) :
    ∀ x ∈ (insertId c k v).map Prod.snd, x ∈ c.map Prod.snd ∨ x = v := by
  induction c with
  | nil =>
    intro x hx
    simp [insertId] at hx
    exact Or.inr hx
  | cons hd tl ih =>
    obtain ⟨k0, w⟩ := hd
    intro x hx
    by_cases h0 : k0 = k
    · simp only [insertId, h0, if_true, List.map_cons, List.mem_cons] at hx
      rcases hx with hx | hx
      · exact Or.inr hx
      · exact Or.inl (by simp [hx])
    · simp only [insertId, h0, if_false, List.map_cons, List.mem_cons] at hx
      rcases hx with hx | hx
      · exact Or.inl (by simp [hx])
      · rcases ih x hx with h | h
        · exact Or.inl (by simp [h])
        · exact Or.inr h

end MemDB

namespace MemDBRef

open MemDB (Rec lookupId insertId)

theorem save1Ref_eq {α : Type} [Inhabited α] (st : State α) (a : Nat) :
    save1Ref st a =
      ({ heap := ⟨st.heap.data ++ [st.heap.readD a, st.heap.readD a]⟩,
         cache := insertId st.cache (st.heap.readD a).id st.heap.size,
         array := if (lookupId st.cache (st.heap.readD a).id).isNone
             then st.array ++ [st.heap.size] else st.array },
       st.heap.size + 1) := by
  simp [save1Ref, clone, Heap.alloc, Heap.readD, Heap.read, Heap.size,
    MemDB.lookupId_insertId_self, List.getElem?_concat_length]

theorem save1Ref_heapLe {α : Type} [Inhabited α] (st : State α) (a : Nat) :
    heapLe st.heap (save1Ref st a).1.heap := by
  rw [save1Ref_eq]
  exact ⟨[st.heap.readD a, st.heap.readD a], rfl⟩

theorem save1Ref_ret {α : Type} [Inhabited α] (st : State α) (a : Nat) :
    (save1Ref st a).2 = st.heap.size + 1 := by
  rw [save1Ref_eq]

theorem save1Ref_size {α : Type} [Inhabited α] (st : State α) (a : Nat) :
    (save1Ref st a).1.heap.size = st.heap.size + 2 := by
  rw [save1Ref_eq]
  simp [Heap.size]

theorem save1Ref_internals {α : Type} [Inhabited α] (st : State α) (a : Nat) :
    ∀ x ∈ internalAddrs (save1Ref st a).1,
      x ∈ internalAddrs st ∨ x = st.heap.size := by
  rw [save1Ref_eq]
  intro x hx
  unfold internalAddrs at hx ⊢
  rw [List.mem_append] at hx
  rcases hx with hx | hx
  · by_cases hb : (lookupId st.cache (st.heap.readD a).id).isNone
    · rw [if_pos hb, List.mem_append] at hx
      rcases hx with hx | hx
      · exact Or.inl (List.mem_append_left _ hx)
      · rw [List.mem_singleton] at hx
        exact Or.inr hx
    · rw [if_neg hb] at hx
      exact Or.inl (List.mem_append_left _ hx)
  · rcases MemDB.insertId_snd_mem st.cache _ _ x hx with h | h
    · exact Or.inl (List.mem_append_right _ h)
    · exact Or.inr h

theorem save1Ref_wf {α : Type} [Inhabited α] (st : State α) (a : Nat)
    (h : WFState st) : WFState (save1Ref st a).1 := by
  intro x hx
  rw [save1Ref_size]
  rcases save1Ref_internals st a x hx with hold | hnew
  · have := h x hold
    omega
  · omega

theorem saveRef_spec {α : Type} [Inhabited α] (as : List Nat) :
    ∀ (st : State α),
      heapLe st.heap (saveRef st as).1.heap ∧
      (∀ x ∈ internalAddrs (saveRef st as).1,
        x ∈ internalAddrs st ∨ st.heap.size ≤ x) ∧
      (WFState st → WFState (saveRef st as).1) ∧
      (WFState st → ∀ x ∈ (saveRef st as).2,
        st.heap.size ≤ x ∧ x ∉ internalAddrs (saveRef st as).1) := by
  induction as with
  | nil =>
    intro st
    exact ⟨heapLe_refl _, fun x hx => Or.inl hx, fun h => h, fun _ x hx => by
      simp [saveRef] at hx⟩
  | cons a rest ih =>
    intro st
    obtain ⟨ihLe, ihInt, ihWf, ihRet⟩ := ih (save1Ref st a).1
    have hsz : (save1Ref st a).1.heap.size = st.heap.size + 2 :=
      save1Ref_size st a
    have hshow : saveRef st (a :: rest)
        = ((saveRef (save1Ref st a).1 rest).1,
           (save1Ref st a).2 :: (saveRef (save1Ref st a).1 rest).2) := rfl
    rw [hshow]
    refine ⟨heapLe_trans (save1Ref_heapLe st a) ihLe, ?_, ?_, ?_⟩
    · intro x hx
      rcases ihInt x hx with h1 | h1
      · rcases save1Ref_internals st a x h1 with h2 | h2
        · exact Or.inl h2
        · exact Or.inr (le_of_eq h2.symm)
      · right
        omega
    · intro hwf
      exact ihWf (save1Ref_wf st a hwf)
    · intro hwf x hx
      have hwf1 : WFState (save1Ref st a).1 := save1Ref_wf st a hwf
      rcases List.mem_cons.mp hx with hx | hx
      · rw [hx, save1Ref_ret]
        refine ⟨by omega, ?_⟩
        intro hcon
        rcases ihInt _ hcon with h1 | h1
        · rcases save1Ref_internals st a _ h1 with h2 | h2
          · have h3 := hwf _ h2
            omega
          · omega
        · omega
      · obtain ⟨hge, hnotin⟩ := ihRet hwf1 x hx
        exact ⟨by omega, hnotin⟩

theorem findStepRef_cases {α Ext : Type} [Inhabited α] (arr : List Nat)
    (matcher : RefMatcher α Ext) (i : Nat) (h : Heap (Rec α))
    (ctx : MemDB.FindContext Nat Ext) :
    (findStepRef arr matcher i h ctx
        = ((clone h (arr.getD i 0)).1,
           { results := ctx.results ++ [(clone h (arr.getD i 0)).2],
             index := i, count := ctx.count, options := ctx.options,
             extra := (matcher h (arr.getD i 0)
               { ctx with index := i }).2 })
      ∧ (matcher h (arr.getD i 0) { ctx with index := i }).1 = true)
    ∨ (findStepRef arr matcher i h ctx
        = (h, { results := ctx.results, index := i, count := ctx.count,
                options := ctx.options,
                extra := (matcher h (arr.getD i 0)
                  { ctx with index := i }).2 })
      ∧ (matcher h (arr.getD i 0) { ctx with index := i }).1 = false) := by
  by_cases hm : (matcher h (arr.getD i 0) { ctx with index := i }).1
  · left
    refine ⟨?_, hm⟩
    simp only [findStepRef]
    rw [if_pos hm]
  · right
    refine ⟨?_, by simpa using hm⟩
    simp only [findStepRef]
    rw [if_neg hm]

theorem runFindRef_heap {α Ext : Type} [Inhabited α] (arr : List Nat)
    (matcher : RefMatcher α Ext) (stopper : RefStopper α Ext) :
    ∀ (idxs : List Nat) (h : Heap (Rec α)) (ctx : MemDB.FindContext Nat Ext),
      heapLe h (runFindRef arr matcher stopper idxs h ctx).1 ∧
      (∀ x ∈ (runFindRef arr matcher stopper idxs h ctx).2.results,
        x ∈ ctx.results ∨ h.size ≤ x) := by
  intro idxs
  induction idxs with
  | nil => intro h ctx; exact ⟨heapLe_refl h, fun x hx => Or.inl hx⟩
  | cons i rest ih =>
    intro h ctx
    have hstepLe : heapLe h (findStepRef arr matcher i h ctx).1 := by
      rcases findStepRef_cases arr matcher i h ctx with ⟨he, _⟩ | ⟨he, _⟩ <;>
        rw [he]
      · exact clone_heapLe h _
      · exact heapLe_refl h
    have hstepRes : ∀ x ∈ (findStepRef arr matcher i h ctx).2.results,
        x ∈ ctx.results ∨ h.size ≤ x := by
      rcases findStepRef_cases arr matcher i h ctx with ⟨he, _⟩ | ⟨he, _⟩ <;>
        rw [he] <;> intro x hx
      · simp only [List.mem_append, List.mem_singleton] at hx
        rcases hx with hx | hx
        · exact Or.inl hx
        · rw [hx, clone_addr]
          exact Or.inr (le_refl _)
      · exact Or.inl hx
    have hstepSize : h.size ≤ (findStepRef arr matcher i h ctx).1.size :=
      heapLe_size hstepLe
    rw [show runFindRef arr matcher stopper (i :: rest) h ctx
        = (if stopper (findStepRef arr matcher i h ctx).1
              (findStepRef arr matcher i h ctx).2
           then findStepRef arr matcher i h ctx
           else runFindRef arr matcher stopper rest
             (findStepRef arr matcher i h ctx).1
             (findStepRef arr matcher i h ctx).2) from rfl]
    by_cases hs : stopper (findStepRef arr matcher i h ctx).1
        (findStepRef arr matcher i h ctx).2
    · rw [if_pos hs]
      exact ⟨hstepLe, hstepRes⟩
    · rw [if_neg hs]
      obtain ⟨ihLe, ihRes⟩ := ih (findStepRef arr matcher i h ctx).1
        (findStepRef arr matcher i h ctx).2
      refine ⟨heapLe_trans hstepLe ihLe, ?_⟩
      intro x hx
      rcases ihRes x hx with h1 | h1
      · exact hstepRes x h1
      · right
        omega

end MemDBRef

namespace MemDB

theorem runFindStep_cases {α Ext : Type} [Inhabited α] (arr : List (Rec α))
    (matcher : Rec α → FindContext (Rec α) Ext → Bool × Ext) (i : Nat)
    (ctx : FindContext (Rec α) Ext) :
    (runFindStep arr matcher i ctx
        = { results := ctx.results ++ [arr.getD i default], index := i,
            count := ctx.count, options := ctx.options,
            extra := (matcher (arr.getD i default) { ctx with index := i }).2 }
      ∧ (matcher (arr.getD i default) { ctx with index := i }).1 = true)
    ∨ (runFindStep arr matcher i ctx
        = { results := ctx.results, index := i, count := ctx.count,
            options := ctx.options,
            extra := (matcher (arr.getD i default) { ctx with index := i }).2 }
      ∧ (matcher (arr.getD i default) { ctx with index := i }).1 = false) := by
  by_cases hm : (matcher (arr.getD i default) { ctx with index := i }).1
  · left
    refine ⟨?_, hm⟩
    simp only [runFindStep]
    rw [if_pos hm]
  · right
    refine ⟨?_, by simpa using hm⟩
    simp only [runFindStep]
    rw [if_neg hm]

end MemDB

namespace MemDBRef

open MemDB (Rec lookupId insertId)

theorem runFindRef_sim {α Ext : Type} [Inhabited α] [Inhabited Ext]
    (arr : List Nat)
    (f : Rec α → List (Rec α) → Nat → Nat → Ext → Bool × Ext)
    (g : List (Rec α) → Nat → Nat → Ext → Bool) :
    ∀ (idxs : List Nat) (h : Heap (Rec α)) (ctx : MemDB.FindContext Nat Ext)
      (vctx : MemDB.FindContext (Rec α) Ext) (vals : List (Rec α)),
      (∀ i ∈ idxs, i < arr.length) →
      (∀ j ∈ arr, j < h.size) →
      readList h arr = vals →
      vctx.results = readList h ctx.results →
      vctx.count = ctx.count →
      vctx.extra = ctx.extra →
      (∀ x ∈ ctx.results, x < h.size) →
      (MemDB.runFind vals
          (fun m c => f m c.results c.index c.count c.extra)
          (fun c => g c.results c.index c.count c.extra) idxs vctx).results
        = readList (runFindRef arr (liftMatcher f) (liftStopper g) idxs h ctx).1
            (runFindRef arr (liftMatcher f) (liftStopper g) idxs h ctx).2.results := by
  intro idxs
  induction idxs with
  | nil =>
    intro h ctx vctx vals _ _ _ hres _ _ _
    exact hres
  | cons i rest ih =>
    intro h ctx vctx vals hin harr hvals hres hcount hextra hvalid
    have hil : i < arr.length := hin i (List.mem_cons_self i rest)
    have haget : arr.getD i 0 = arr[i] := List.getD_eq_getElem arr 0 hil
    have hamem : arr.getD i 0 ∈ arr := by
      rw [haget]
      exact List.getElem_mem hil
    have hasz : arr.getD i 0 < h.size := harr _ hamem
    have hvi : vals.getD i default = h.readD (arr.getD i 0) := by
      rw [← hvals]
      show (arr.map h.readD).getD i default = h.readD (arr.getD i 0)
      have hlen : i < (arr.map h.readD).length := by simpa using hil
      rw [List.getD_eq_getElem _ _ hlen, List.getElem_map, haget]
    have hmeq : (fun (m : Rec α) (c : MemDB.FindContext (Rec α) Ext) =>
          f m c.results c.index c.count c.extra) (vals.getD i default)
          { vctx with index := i }
        = liftMatcher f h (arr.getD i 0) { ctx with index := i } := by
      show f (vals.getD i default) vctx.results i vctx.count vctx.extra
          = f (h.readD (arr.getD i 0)) (ctx.results.map h.readD) i
            ctx.count ctx.extra
      rw [hvi, hcount, hextra]
      rw [show vctx.results = ctx.results.map h.readD from hres]
    -- relate the two step results
    have hstep := findStepRef_cases arr (liftMatcher f) i h ctx
    have hvstep := MemDB.runFindStep_cases vals
      (fun m c => f m c.results c.index c.count c.extra) i vctx
    set p := findStepRef arr (liftMatcher f) i h ctx with hp
    set q := MemDB.runFindStep vals
      (fun m c => f m c.results c.index c.count c.extra) i vctx with hq
    have hbool : (f (vals.getD i default) vctx.results i vctx.count vctx.extra).1
        = (liftMatcher f h (arr.getD i 0) { ctx with index := i }).1 :=
      congrArg Prod.fst hmeq
    have hex2 : (f (vals.getD i default) vctx.results i vctx.count vctx.extra).2
        = (liftMatcher f h (arr.getD i 0) { ctx with index := i }).2 :=
      congrArg Prod.snd hmeq
    have hcore : q.results = readList p.1 p.2.results ∧
        q.index = p.2.index ∧ q.count = p.2.count ∧ q.extra = p.2.extra ∧
        (∀ j ∈ arr, j < p.1.size) ∧ readList p.1 arr = vals ∧
        (∀ x ∈ p.2.results, x < p.1.size) := by
      rcases hstep with ⟨hpe, hpb⟩ | ⟨hpe, hpb⟩ <;>
        rcases hvstep with ⟨hqe, hqb⟩ | ⟨hqe, hqb⟩
      · -- both matched
        refine ⟨?_, ?_, ?_, ?_, ?_, ?_, ?_⟩
        · rw [hqe, hpe]
          show vctx.results ++ [vals.getD i default]
            = readList (clone h (arr.getD i 0)).1
                (ctx.results ++ [(clone h (arr.getD i 0)).2])
          unfold readList
          rw [List.map_append]
          rw [show (ctx.results.map (clone h (arr.getD i 0)).1.readD)
              = readList (clone h (arr.getD i 0)).1 ctx.results from rfl]
          rw [readList_heapLe (clone_heapLe h (arr.getD i 0)) ctx.results hvalid]
          rw [show ([(clone h (arr.getD i 0)).2].map
                (clone h (arr.getD i 0)).1.readD)
              = [(clone h (arr.getD i 0)).1.readD (clone h (arr.getD i 0)).2]
              from rfl]
          rw [clone_read_new h (arr.getD i 0)]
          rw [show vctx.results = readList h ctx.results from hres, hvi]
        · rw [hqe, hpe]
        · rw [hqe, hpe]
          exact hcount
        · rw [hqe, hpe]
          show (f (vals.getD i default) vctx.results i vctx.count vctx.extra).2
            = (liftMatcher f h (arr.getD i 0) { ctx with index := i }).2
          exact hex2
        · intro j hj
          rw [hpe, clone_size]
          have := harr j hj
          omega
        · rw [hpe]
          show readList (clone h (arr.getD i 0)).1 arr = vals
          rw [readList_heapLe (clone_heapLe h (arr.getD i 0)) arr harr]
          exact hvals
        · intro x hx
          rw [hpe] at hx ⊢
          rw [clone_size]
          simp only [List.mem_append, List.mem_singleton] at hx
          rcases hx with hx | hx
          · have := hvalid x hx
            omega
          · rw [hx, clone_addr]
            omega
      · -- ref matched, value did not: impossible
        exfalso
        have hv2 : (f (vals.getD i default) vctx.results i vctx.count
            vctx.extra).1 = false := hqb
        have hv3 : (f (vals.getD i default) vctx.results i vctx.count
            vctx.extra).1 = true := hbool.trans hpb
        rw [hv2] at hv3
        exact Bool.noConfusion hv3
      · -- value matched, ref did not: impossible
        exfalso
        have hv2 : (f (vals.getD i default) vctx.results i vctx.count
            vctx.extra).1 = true := hqb
        have hv3 : (f (vals.getD i default) vctx.results i vctx.count
            vctx.extra).1 = false := hbool.trans hpb
        rw [hv2] at hv3
        exact Bool.noConfusion hv3
      · -- neither matched
        refine ⟨?_, ?_, ?_, ?_, ?_, ?_, ?_⟩
        · rw [hqe, hpe]
          exact hres
        · rw [hqe, hpe]
        · rw [hqe, hpe]
          exact hcount
        · rw [hqe, hpe]
          show (f (vals.getD i default) vctx.results i vctx.count vctx.extra).2
            = (liftMatcher f h (arr.getD i 0) { ctx with index := i }).2
          exact hex2
        · intro j hj
          rw [hpe]
          exact harr j hj
        · rw [hpe]
          exact hvals
        · intro x hx
          rw [hpe] at hx ⊢
          exact hvalid x hx
    obtain ⟨hres2, hidx2, hcnt2, hext2, harr2, hvals2, hvalid2⟩ := hcore
    have hstopeq : g q.results q.index q.count q.extra
        = g (p.2.results.map p.1.readD) p.2.index p.2.count p.2.extra := by
      rw [hres2, hidx2, hcnt2, hext2]
      rfl
    rw [show MemDB.runFind vals
        (fun m c => f m c.results c.index c.count c.extra)
        (fun c => g c.results c.index c.count c.extra) (i :: rest) vctx
        = (if g q.results q.index q.count q.extra then q
           else MemDB.runFind vals
             (fun m c => f m c.results c.index c.count c.extra)
             (fun c => g c.results c.index c.count c.extra) rest q) from rfl]
    rw [show runFindRef arr (liftMatcher f) (liftStopper g) (i :: rest) h ctx
        = (if g (p.2.results.map p.1.readD) p.2.index p.2.count p.2.extra
           then p
           else runFindRef arr (liftMatcher f) (liftStopper g) rest p.1 p.2)
        from rfl]
    by_cases hstop : g (p.2.results.map p.1.readD) p.2.index p.2.count p.2.extra
    · rw [if_pos hstop, if_pos (hstopeq.trans hstop)]
      exact hres2
    · rw [if_neg hstop, if_neg (fun hcon => hstop ((hstopeq.symm.trans hcon)))]
      exact ih p.1 p.2 q vals
        (fun j hj => hin j (List.mem_cons_of_mem i hj))
        harr2 hvals2 hres2 hcnt2 hext2 hvalid2

end MemDBRef

namespace MemDBRef

open MemDB (Rec lookupId insertId)

theorem findRef_values {α Ext : Type} [Inhabited α] [Inhabited Ext]
    (st : State α)
    (f : Rec α → List (Rec α) → Nat → Nat → Ext → Bool × Ext)
    (g : List (Rec α) → Nat → Nat → Ext → Bool)
    (opts : MemDB.FindOptions Ext)
    (hwf : ∀ j ∈ st.array, j < st.heap.size) :
    readList (findRef st (liftMatcher f) (liftStopper g) opts).1.heap
        (findRef st (liftMatcher f) (liftStopper g) opts).2
      = (MemDB.runFind (readList st.heap st.array)
          (fun m c => f m c.results c.index c.count c.extra)
          (fun c => g c.results c.index c.count c.extra)
          (MemDB.visitIdxs st.array.length opts.reverse
            (MemDB.effStart st.array.length opts.reverse opts.startingIndex))
          { results := [],
            index := MemDB.effStart st.array.length opts.reverse
              opts.startingIndex,
            count := st.array.length, options := opts,
            extra := opts.extra.getD default }).results := by
  have h := runFindRef_sim st.array f g
    (MemDB.visitIdxs st.array.length opts.reverse
      (MemDB.effStart st.array.length opts.reverse opts.startingIndex))
    st.heap
    { results := [],
      index := MemDB.effStart st.array.length opts.reverse opts.startingIndex,
      count := st.array.length, options := opts,
      extra := opts.extra.getD default }
    { results := [],
      index := MemDB.effStart st.array.length opts.reverse opts.startingIndex,
      count := st.array.length, options := opts,
      extra := opts.extra.getD default }
    (readList st.heap st.array)
    (MemDB.visitIdxs_lt st.array.length opts.reverse opts.startingIndex)
    hwf rfl rfl rfl rfl (by simp)
  exact h.symm

end MemDBRef

/-- Claim C9: with unchanged storage between them, two `find` calls with the
same matcher, same stopper and equal options return value-equal result
lists.  The matcher and stopper are required to depend only on their
arguments (`liftMatcher`/`liftStopper`): they see the visited record's
value, the accumulated result values, the scan index, the count and the
`extra` payload, which is re-seeded from `options.extra` at the start of
each call, so no state leaks from the first call into the second — even
though the first call really did extend the heap. -/
theorem c9_find_repeatable {α Ext : Type} [Inhabited α] [Inhabited Ext]
    (st : MemDBRef.State α)
    (f : MemDB.Rec α → List (MemDB.Rec α) → Nat → Nat → Ext → Bool × Ext)
    (g : List (MemDB.Rec α) → Nat → Nat → Ext → Bool)
    (opts : MemDB.FindOptions Ext)
    (hwf : ∀ j ∈ st.array, j < st.heap.size) :
    MemDBRef.readList
        (MemDBRef.findRef st (MemDBRef.liftMatcher f)
          (MemDBRef.liftStopper g) opts).1.heap
        (MemDBRef.findRef st (MemDBRef.liftMatcher f)
          (MemDBRef.liftStopper g) opts).2
      = MemDBRef.readList
          (MemDBRef.findRef
            (MemDBRef.findRef st (MemDBRef.liftMatcher f)
              (MemDBRef.liftStopper g) opts).1
            (MemDBRef.liftMatcher f) (MemDBRef.liftStopper g) opts).1.heap
          (MemDBRef.findRef
            (MemDBRef.findRef st (MemDBRef.liftMatcher f)
              (MemDBRef.liftStopper g) opts).1
            (MemDBRef.liftMatcher f) (MemDBRef.liftStopper g) opts).2 := by
  have hLe : MemDBRef.heapLe st.heap
      (MemDBRef.findRef st (MemDBRef.liftMatcher f)
        (MemDBRef.liftStopper g) opts).1.heap :=
    (MemDBRef.runFindRef_heap st.array (MemDBRef.liftMatcher f)
      (MemDBRef.liftStopper g)
      (MemDB.visitIdxs st.array.length opts.reverse
        (MemDB.effStart st.array.length opts.reverse opts.startingIndex))
      st.heap
      { results := [],
        index := MemDB.effStart st.array.length opts.reverse
          opts.startingIndex,
        count := st.array.length, options := opts,
        extra := opts.extra.getD default }).1
  have hwf1 : ∀ j ∈ (MemDBRef.findRef st (MemDBRef.liftMatcher f)
      (MemDBRef.liftStopper g) opts).1.array,
      j < (MemDBRef.findRef st (MemDBRef.liftMatcher f)
        (MemDBRef.liftStopper g) opts).1.heap.size := by
    intro j hj
    have hj2 : j ∈ st.array := hj
    have h1 := hwf j hj2
    have h2 := MemDBRef.heapLe_size hLe
    omega
  have h1 := MemDBRef.findRef_values st f g opts hwf
  have h2 := MemDBRef.findRef_values
    (MemDBRef.findRef st (MemDBRef.liftMatcher f)
      (MemDBRef.liftStopper g) opts).1 f g opts hwf1
  rw [h1, h2]
  rw [show (MemDBRef.findRef st (MemDBRef.liftMatcher f)
      (MemDBRef.liftStopper g) opts).1.array = st.array from rfl,
    MemDBRef.readList_heapLe hLe st.array hwf]

/-- Witness for C9 at a concrete one-record store with a counting matcher
and an early stopper. -/
theorem c9_find_repeatable_witness :
    MemDBRef.readList
        (MemDBRef.findRef refSt1 (MemDBRef.liftMatcher witnessF)
          (MemDBRef.liftStopper witnessG) {}).1.heap
        (MemDBRef.findRef refSt1 (MemDBRef.liftMatcher witnessF)
          (MemDBRef.liftStopper witnessG) {}).2
      = MemDBRef.readList
          (MemDBRef.findRef
            (MemDBRef.findRef refSt1 (MemDBRef.liftMatcher witnessF)
              (MemDBRef.liftStopper witnessG) {}).1
            (MemDBRef.liftMatcher witnessF)
            (MemDBRef.liftStopper witnessG) {}).1.heap
          (MemDBRef.findRef
            (MemDBRef.findRef refSt1 (MemDBRef.liftMatcher witnessF)
              (MemDBRef.liftStopper witnessG) {}).1
            (MemDBRef.liftMatcher witnessF)
            (MemDBRef.liftStopper witnessG) {}).2 :=
  c9_find_repeatable refSt1 witnessF witnessG {} (by decide)

namespace MemDBRef

theorem WFState_array_lt {α : Type} (st : State α) (h : WFState st) :
    ∀ j ∈ st.array, j < st.heap.size := fun j hj =>
  h j (List.mem_append_left _ hj)

theorem getAllRef_fresh {α : Type} [Inhabited α] (st : State α)
    (h : WFState st) :
    (getAllRef st).1.cache = st.cache ∧
    (getAllRef st).1.array = st.array ∧
    readList (getAllRef st).1.heap (getAllRef st).2
      = readList st.heap st.array ∧
    (∀ x ∈ (getAllRef st).2, x ∉ internalAddrs (getAllRef st).1) := by
  refine ⟨rfl, rfl, cloneList_values st.array st.heap (WFState_array_lt st h),
    ?_⟩
  intro x hx hcon
  have hfresh := (cloneList_spec st.array st.heap).2 x hx
  have hint : x ∈ internalAddrs st := hcon
  have := h x hint
  omega

theorem findByIdRef_fresh {α : Type} [Inhabited α] (st : State α)
    (ids : List String) (h : WFState st) :
    (findByIdRef st ids).1.cache = st.cache ∧
    (findByIdRef st ids).1.array = st.array ∧
    (∀ x ∈ (findByIdRef st ids).2,
      x ∉ internalAddrs (findByIdRef st ids).1) := by
  refine ⟨rfl, rfl, ?_⟩
  intro x hx hcon
  have hfresh := (findByIdLoop_spec st.cache ids st.heap).2 x hx
  have hint : x ∈ internalAddrs st := hcon
  have := h x hint
  omega

theorem findRef_fresh {α Ext : Type} [Inhabited α] [Inhabited Ext]
    (st : State α) (matcher : RefMatcher α Ext) (stopper : RefStopper α Ext)
    (opts : MemDB.FindOptions Ext) (h : WFState st) :
    (findRef st matcher stopper opts).1.cache = st.cache ∧
    (findRef st matcher stopper opts).1.array = st.array ∧
    (∀ x ∈ (findRef st matcher stopper opts).2,
      x ∉ internalAddrs (findRef st matcher stopper opts).1) := by
  refine ⟨rfl, rfl, ?_⟩
  intro x hx hcon
  have hrun := (runFindRef_heap st.array matcher stopper
    (MemDB.visitIdxs st.array.length opts.reverse
      (MemDB.effStart st.array.length opts.reverse opts.startingIndex))
    st.heap
    { results := [],
      index := MemDB.effStart st.array.length opts.reverse opts.startingIndex,
      count := st.array.length, options := opts,
      extra := opts.extra.getD default }).2 x hx
  rcases hrun with h1 | h1
  · simp at h1
  · have hint : x ∈ internalAddrs st := hcon
    have := h x hint
    omega

end MemDBRef

/-- Claim C3 counterexample: during `find`, the record handed to the caller's
matcher IS the live internal record.  In a concrete one-record store built
through `save`, a matcher that records the addresses it receives sees
exactly the store's internal sequence addresses, and a matcher that matches
exactly on internal addresses produces a non-empty result — so the record
argument supplied to the matcher is shared by reference with internal
storage, contradicting the claim. -/
theorem c3_matcher_gets_live_reference :
    (MemDBRef.runFindRef refSt1.array captureMatcher refStopNever
        (MemDB.visitIdxs refSt1.array.length false
          (MemDB.effStart refSt1.array.length false none))
        refSt1.heap
        { results := [], index := MemDB.effStart refSt1.array.length false none,
          count := refSt1.array.length, options := {},
          extra := [] }).2.extra
      = refSt1.array ∧
    refSt1.array = [1] ∧
    MemDBRef.WFState refSt1 ∧
    (MemDBRef.findRef refSt1 detectMatcher refStopNever {}).2 ≠ [] := by
  decide

/-- Claim C3 (amended): every record VALUE crossing the store boundary
outward is an independent deep copy — the addresses returned by `getAll`,
`save`, `findById` and `find` are freshly allocated and disjoint from the
store's internal addresses, and `save` stores only fresh copies so a record
passed in by the caller is never retained — BUT the record argument supplied
to a caller-provided matcher during `find` is the live internal record
(shared by reference), so isolation does not extend to it. -/
theorem c3_boundary_deep_copies_amended :
    (∀ {α : Type} [Inhabited α] (st : MemDBRef.State α), MemDBRef.WFState st →
      (MemDBRef.getAllRef st).1.cache = st.cache ∧
      (MemDBRef.getAllRef st).1.array = st.array ∧
      MemDBRef.readList (MemDBRef.getAllRef st).1.heap (MemDBRef.getAllRef st).2
        = MemDBRef.readList st.heap st.array ∧
      (∀ x ∈ (MemDBRef.getAllRef st).2,
        x ∉ MemDBRef.internalAddrs (MemDBRef.getAllRef st).1)) ∧
    (∀ {α : Type} [Inhabited α] (st : MemDBRef.State α) (as : List Nat),
      MemDBRef.WFState st →
      (∀ x ∈ (MemDBRef.saveRef st as).2,
        x ∉ MemDBRef.internalAddrs (MemDBRef.saveRef st as).1) ∧
      (∀ a, a ∉ MemDBRef.internalAddrs st → a < st.heap.size →
        a ∉ MemDBRef.internalAddrs (MemDBRef.saveRef st as).1) ∧
      MemDBRef.WFState (MemDBRef.saveRef st as).1) ∧
    (∀ {α : Type} [Inhabited α] (st : MemDBRef.State α) (ids : List String),
      MemDBRef.WFState st →
      (MemDBRef.findByIdRef st ids).1.cache = st.cache ∧
      (MemDBRef.findByIdRef st ids).1.array = st.array ∧
      (∀ x ∈ (MemDBRef.findByIdRef st ids).2,
        x ∉ MemDBRef.internalAddrs (MemDBRef.findByIdRef st ids).1)) ∧
    (∀ {α Ext : Type} [Inhabited α] [Inhabited Ext] (st : MemDBRef.State α)
      (matcher : MemDBRef.RefMatcher α Ext)
      (stopper : MemDBRef.RefStopper α Ext) (opts : MemDB.FindOptions Ext),
      MemDBRef.WFState st →
      (MemDBRef.findRef st matcher stopper opts).1.cache = st.cache ∧
      (MemDBRef.findRef st matcher stopper opts).1.array = st.array ∧
      (∀ x ∈ (MemDBRef.findRef st matcher stopper opts).2,
        x ∉ MemDBRef.internalAddrs (MemDBRef.findRef st matcher stopper opts).1)) := by
  refine ⟨fun st h => MemDBRef.getAllRef_fresh st h, ?_,
    fun st ids h => MemDBRef.findByIdRef_fresh st ids h,
    fun st matcher stopper opts h => MemDBRef.findRef_fresh st matcher stopper opts h⟩
  intro α _ st as hwf
  obtain ⟨hLe, hInt, hWf, hRet⟩ := MemDBRef.saveRef_spec as st
  refine ⟨fun x hx => (hRet hwf x hx).2, ?_, hWf hwf⟩
  intro a hnotin hlt hcon
  rcases hInt a hcon with h1 | h1
  · exact hnotin h1
  · omega

/-- Witness for the amended C3 theorem at the concrete one-record store. -/
theorem c3_boundary_deep_copies_witness :
    (∀ x ∈ (MemDBRef.getAllRef refSt1).2,
      x ∉ MemDBRef.internalAddrs (MemDBRef.getAllRef refSt1).1) ∧
    (∀ x ∈ (MemDBRef.saveRef refSt1 [0]).2,
      x ∉ MemDBRef.internalAddrs (MemDBRef.saveRef refSt1 [0]).1) ∧
    (∀ x ∈ (MemDBRef.findByIdRef refSt1 ["x"]).2,
      x ∉ MemDBRef.internalAddrs (MemDBRef.findByIdRef refSt1 ["x"]).1) := by
  refine ⟨(c3_boundary_deep_copies_amended.1 refSt1 (by decide)).2.2.2,
    ((c3_boundary_deep_copies_amended.2.1 refSt1 [0] (by decide)).1),
    (c3_boundary_deep_copies_amended.2.2.1 refSt1 ["x"] (by decide)).2.2⟩
